import Mathlib

/-!
Shallow embedding of the `tripsettle` expense-settlement engine
(`tripsettle/utils.py`, `tripsettle/models.py`, `tripsettle/strategies.py`,
`tripsettle/compute.py`) and proofs about it.

Python `Decimal` values are modelled as exact rationals (`ℚ`); `Decimal`
arithmetic on the amounts handled here (addition, subtraction, comparison,
quantization) is exact, and the quantization primitive `round_money` is
modelled by an explicit round-half-to-even function on `ℚ`.

Python dicts keyed by `Person` are modelled as insertion-ordered association
lists; `Person` equality in the source is the dataclass-generated field-wise
comparison, modelled by structural equality on the `Person` structure.
-/

/-- A person, as in `models.Person`: a display name and an opaque id.
The `UUID` id is modelled by its (fixed-width, hence order-preserving)
string rendering, which is what the source's sort keys use (`str(x.id)`). -/
structure Person where
  name : String
  id : String
deriving DecidableEq, Repr

/-- The dataclass-generated `Person.__eq__`: field-wise comparison of
`name` and `id` (the dataclass is declared with `eq=True` and compares all
fields, in declaration order). -/
def Person.eq (p q : Person) : Bool :=
  p.name == q.name && p.id == q.id

/-- Error kinds, as in `tripsettle/errors.py` (plus the Python built-in
`KeyError`, which a dict subscript on a missing key raises). -/
inductive Err where
  | validation
  | rounding
  | strategy
  | keyErr
deriving DecidableEq, Repr

/-- Round-half-to-even to the nearest integer, the rounding mode
`decimal.ROUND_HALF_EVEN` applies to the scaled amount inside
`Decimal.quantize`. -/
def rhe (q : ℚ) : ℤ :=
  if q - ⌊q⌋ < 1/2 then ⌊q⌋
  else if 1/2 < q - ⌊q⌋ then ⌊q⌋ + 1
  else if ⌊q⌋ % 2 = 0 then ⌊q⌋ else ⌊q⌋ + 1

/-- The source's `utils.round_money(amount, places)`:
`amount.quantize(Decimal(10) ** -places, rounding=ROUND_HALF_EVEN)`,
i.e. the multiple of `10 ^ (-places)` nearest to `amount`, ties to even. -/
def round_money (amount : ℚ) (places : ℤ) : ℚ :=
  (rhe (amount * 10 ^ places) : ℚ) / 10 ^ places

/-- An amount that is a whole number of cents (a multiple of `0.01`), the
form every 2-place-quantized `Decimal` has. -/
def isCent (q : ℚ) : Prop := ∃ k : ℤ, q = (k : ℚ) / 100

/-- A Python dict keyed by `Person`: an insertion-ordered association list
(keys of an actual dict are unique; uniqueness is carried as a hypothesis
where proofs need it). -/
abbrev Balances := List (Person × ℚ)

/-- Dict key list, in insertion order (`d.keys()`). -/
def dkeys {α : Type} (d : List (Person × α)) : List Person := d.map Prod.fst

/-- Dict values summed (`sum(d.values())`). -/
def dsum (d : Balances) : ℚ := (d.map Prod.snd).sum

/-- Dict subscript read `d[p]` (first matching key; the default `0` is never
reached at call sites, which all guard or guarantee presence). -/
def dget : Balances → Person → ℚ
  | [], _ => 0
  | e :: t, p => if e.1 = p then e.2 else dget t p

/-- Dict subscript write `d[p] = v`: replace in place if the key is present,
else append (Python dicts preserve insertion order). -/
def dset {α : Type} : List (Person × α) → Person → α → List (Person × α)
  | [], p, v => [(p, v)]
  | e :: t, p, v => if e.1 = p then (e.1, v) :: t else e :: dset t p v

/-- In-place update `d[p] = f(d[p])` for a key `p` already in the dict
(no-op when the key is absent; callers that can hit an absent key go
through `dmodifyE`, which models Python's `KeyError`). -/
def dmodify : Balances → Person → (ℚ → ℚ) → Balances
  | [], _, _ => []
  | e :: t, p, f => if e.1 = p then (e.1, f e.2) :: t else e :: dmodify t p f

/-- The compound-assignment `d[p] op= v` on a dict: Python raises `KeyError`
when `p` is not a key. -/
def dmodifyE (d : Balances) (p : Person) (f : ℚ → ℚ) : Except Err Balances :=
  if p ∈ dkeys d then .ok (dmodify d p f) else .error .keyErr

/-- Lookup returning the stored value if present (`d.get(p)`), used to state
properties about summary rows. -/
def dfind {α : Type} : List (Person × α) → Person → Option α
  | [], _ => none
  | e :: t, p => if e.1 = p then some e.2 else dfind t p

/-- Python's stable `sorted(l, key=key)` / `l.sort(key=key)`: modelled by
insertion sort, which is also stable, under the total preorder induced by
the key. -/
def sortOn {α β : Type} [LinearOrder β] (key : α → β) (l : List α) : List α :=
  l.insertionSort (fun a b => key a ≤ key b)

/-- Sort key used in `distribute_remainder`:
`(abs(balances[p]), p.name, p.id)`, compared lexicographically. -/
def distKey (balances : Balances) (p : Person) : ℚ ×ₗ (String ×ₗ String) :=
  toLex (|dget balances p|, toLex (p.name, p.id))

/-- The source's `utils.distribute_remainder(balances, remainder, tolerance)`
inner loop: one `±0.01` increment per person, in sorted order, stopping
when the remainder is exhausted; returns the adjusted dict and the
remainder still undistributed. -/
def distLoop (inc : ℚ) : List Person → Balances → ℚ → Balances × ℚ
  | [], adjusted, rem => (adjusted, rem)
  | p :: ps, adjusted, rem =>
    if rem = 0 then (adjusted, rem)
    else distLoop inc ps (dmodify adjusted p (· + inc)) (rem - inc)

/-- The source's `utils.distribute_remainder`: fail when `|remainder|`
exceeds the tolerance, return a copy unchanged when the remainder is zero,
otherwise add `±0.01` increments to the people with smallest absolute
balance first (ties by name then id). -/
def distribute_remainder (balances : Balances) (remainder tolerance : ℚ) :
    Except Err Balances :=
  if |remainder| > tolerance then .error .rounding
  else if remainder = 0 then .ok balances
  else
    let sorted_people := sortOn (distKey balances) (dkeys balances)
    let increment : ℚ := if remainder > 0 then 1/100 else -(1/100)
    .ok (distLoop increment sorted_people balances remainder).1

/-- The source's `utils.ensure_zero_sum(balances, tolerance)`. -/
def ensure_zero_sum (balances : Balances) (tolerance : ℚ) : Except Err Balances :=
  let total := dsum balances
  if |total| ≤ tolerance then
    if total ≠ 0 then distribute_remainder balances total tolerance
    else .ok balances
  else .error .rounding

/-- Split strategies (`models.SplitStrategy`). -/
inductive SplitStrategy where
  | EQUAL
  | WEIGHTED
  | FIXED_SHARES
deriving DecidableEq, Repr

/-- The `payer` field's untyped union: a single `Person`, or a list of
`(person, amount)` pairs. -/
inductive Payer where
  | single (p : Person)
  | multi (l : List (Person × ℚ))
deriving DecidableEq, Repr

/-- A validated `models.Activity` (`id` and `currency` are plumbing the
settlement engine never reads and are omitted). -/
structure Activity where
  description : String
  amount : ℚ
  payer : Payer
  participants : List Person
  split_strategy : SplitStrategy
  weights : Option (List (Person × ℚ))
  shares : Option (List (Person × ℚ))
deriving DecidableEq, Repr

/-- The source's `Activity.get_payers()`. -/
def Activity.get_payers (a : Activity) : List (Person × ℚ) :=
  match a.payer with
  | .multi l => l
  | .single p => [(p, a.amount)]

/-- Strategy-specific validation at the end of `Activity.__post_init__`:
WEIGHTED renormalizes the weights only when their sum is more than `0.01`
away from `1` (failing when the sum is not positive); FIXED_SHARES checks
the shares against the amount and non-negativity. -/
def mkActivityStrategy (description : String) (amount : ℚ) (payer : Payer)
    (participants : List Person) (split_strategy : SplitStrategy)
    (weights shares : Option (List (Person × ℚ))) : Except Err Activity :=
  match split_strategy with
  | .WEIGHTED =>
    match weights with
    | none => .error .validation
    | some w =>
      if w = [] then .error .validation
      else
        let weight_sum := (w.map Prod.snd).sum
        if |weight_sum - 1| > 1/100 then
          if weight_sum > 0 then
            .ok ⟨description, amount, payer, participants, split_strategy,
              some (w.map (fun e => (e.1, e.2 / weight_sum))), shares⟩
          else .error .validation
        else
          .ok ⟨description, amount, payer, participants, split_strategy, some w, shares⟩
  | .FIXED_SHARES =>
    match shares with
    | none => .error .validation
    | some sh =>
      if sh = [] then .error .validation
      else if |(sh.map Prod.snd).sum - amount| > 1/100 then .error .validation
      else if sh.any (fun e => decide (e.2 < 0)) then .error .validation
      else .ok ⟨description, amount, payer, participants, split_strategy, weights, shares⟩
  | .EQUAL =>
    .ok ⟨description, amount, payer, participants, split_strategy, weights, shares⟩

/-- `Activity(...)` construction including `__post_init__` validation, in
the source's check order. -/
def mkActivity (description : String) (amount : ℚ) (payer : Payer)
    (participants : List Person) (split_strategy : SplitStrategy)
    (weights shares : Option (List (Person × ℚ))) : Except Err Activity :=
  if amount < 0 then .error .validation
  -- `not description or not description.strip()`: true exactly when the
  -- description is empty or all-whitespace
  else if description.toList.all (fun c => c.isWhitespace) then .error .validation
  else if participants = [] then .error .validation
  else if payer = Payer.multi [] then .error .validation
  else
    match payer with
    | .multi l =>
      if |(l.map Prod.snd).sum - amount| > 1/100 then .error .validation
      else if l.any (fun e => decide (e.2 < 0)) then .error .validation
      else mkActivityStrategy description amount payer participants split_strategy weights shares
    | .single _ =>
      mkActivityStrategy description amount payer participants split_strategy weights shares

/-- `strategies.compute_equal_share`. -/
def compute_equal_share (a : Activity) (participant : Person) : Except Err ℚ :=
  if participant ∉ a.participants then .error .strategy
  else if a.participants.length = 0 then .ok 0
  else .ok (round_money (a.amount / a.participants.length) 2)

/-- `strategies.compute_weighted_share`. -/
def compute_weighted_share (a : Activity) (participant : Person) : Except Err ℚ :=
  match a.weights with
  | none => .error .strategy
  | some w =>
    if w = [] then .error .strategy
    else if participant ∉ dkeys w then .error .strategy
    else .ok (round_money (a.amount * dget w participant) 2)

/-- `strategies.compute_fixed_share`. -/
def compute_fixed_share (a : Activity) (participant : Person) : Except Err ℚ :=
  match a.shares with
  | none => .error .strategy
  | some sh =>
    if sh = [] then .error .strategy
    else if participant ∉ dkeys sh then .error .strategy
    else .ok (round_money (dget sh participant) 2)

/-- `strategies.compute_participant_share`: dispatch on the strategy tag. -/
def compute_participant_share (a : Activity) (participant : Person) : Except Err ℚ :=
  match a.split_strategy with
  | .EQUAL => compute_equal_share a participant
  | .WEIGHTED => compute_weighted_share a participant
  | .FIXED_SHARES => compute_fixed_share a participant

/-- `strategies.compute_all_shares`: one dict entry per participant, in
participant order. -/
def compute_all_shares (a : Activity) : Except Err Balances :=
  a.participants.foldlM (fun d p => do
    let s ← compute_participant_share a p
    pure (dset d p s)) []

/-- A `models.Event`: its people and activities (id, name and currency are
plumbing the settlement engine never reads). -/
structure Event where
  people : List Person
  activities : List Activity
deriving Repr

/-- One activity's contribution inside `compute_net_balances`: subtract
each participant's share, then add each payer's amount (a dict subscript on
a person missing from the balances raises `KeyError`). -/
def netBalanceStep (bal : Balances) (a : Activity) : Except Err Balances := do
  let shares ← compute_all_shares a
  let bal2 ← shares.foldlM (fun b e => dmodifyE b e.1 (· - e.2)) bal
  a.get_payers.foldlM (fun b e => dmodifyE b e.1 (· + e.2)) bal2

/-- The aggregation step of `compute.compute_net_balances(event)`:
zero-initialize over the event's people, subtract shares and add payments
per activity, then round every balance (everything before the
`ensure_zero_sum` call). -/
def computeRawBalances (event : Event) : Except Err Balances := do
  let bal0 := event.people.foldl (fun d p => dset d p 0) []
  let bal1 ← event.activities.foldlM netBalanceStep bal0
  pure (bal1.map (fun e => (e.1, round_money e.2 2)))

/-- `compute.compute_net_balances(event)`: the aggregation step above,
then `ensure_zero_sum` with tolerance `0.02`. -/
def compute_net_balances (event : Event) : Except Err Balances := do
  let bal2 ← computeRawBalances event
  ensure_zero_sum bal2 (2/100)

/-- One row of the settlement summary. -/
structure SummaryEntry where
  paid : ℚ
  owed : ℚ
  net : ℚ
deriving DecidableEq, Repr

/-- One activity's contribution to the paid/owed totals inside
`compute_settlement_summary`. -/
def summaryPairStep (pr : Balances × Balances) (a : Activity) :
    Except Err (Balances × Balances) := do
  let paid ← a.get_payers.foldlM (fun b e => dmodifyE b e.1 (· + e.2)) pr.1
  let shares ← compute_all_shares a
  let owed ← shares.foldlM (fun b e => dmodifyE b e.1 (· + e.2)) pr.2
  pure (paid, owed)

/-- `compute.compute_settlement_summary(event, balances)`. -/
def compute_settlement_summary (event : Event) (balances : Balances) :
    Except Err (List (Person × SummaryEntry)) := do
  let paid0 : Balances := event.people.foldl (fun d p => dset d p 0) []
  let owed0 : Balances := event.people.foldl (fun d p => dset d p 0) []
  let acc ← event.activities.foldlM summaryPairStep (paid0, owed0)
  let sortedPeople := sortOn (fun p => toLex (p.name, p.id)) event.people
  sortedPeople.foldlM (fun s p =>
    if p ∈ dkeys balances then
      pure (dset s p ⟨round_money (dget acc.1 p) 2, round_money (dget acc.2 p) 2,
        dget balances p⟩)
    else .error Err.keyErr) ([] : List (Person × SummaryEntry))

/-- `Event.add_activity`, tail part: participant membership checks, then
`Activity` construction, then the append — the method's single mutation.
The event value is threaded explicitly: each exit returns the event as the
mutations executed so far left it. -/
def addActivityRest (event : Event) (description : String) (amount : ℚ)
    (payer : Payer) (participants : List Person) (split_strategy : SplitStrategy)
    (weights shares : Option (List (Person × ℚ))) : Except Err Activity × Event :=
  if participants.any (fun p => decide (p ∉ event.people)) then
    (.error .validation, event)
  else
    match mkActivity description amount payer participants split_strategy weights shares with
    | .error e => (.error e, event)
    | .ok a => (.ok a, { event with activities := event.activities ++ [a] })

/-- `Event.add_activity`: payer membership checks first, then the rest. -/
def add_activity (event : Event) (description : String) (amount : ℚ)
    (payer : Payer) (participants : List Person) (split_strategy : SplitStrategy)
    (weights shares : Option (List (Person × ℚ))) : Except Err Activity × Event :=
  let payerOk := match payer with
    | .multi l => l.all (fun e => decide (e.1 ∈ event.people))
    | .single p => decide (p ∈ event.people)
  if payerOk then
    addActivityRest event description amount payer participants split_strategy weights shares
  else (.error .validation, event)

/-- A `models.SettlementTransfer` (already validated and quantized). -/
structure SettlementTransfer where
  from_person : Person
  to_person : Person
  amount : ℚ
deriving DecidableEq, Repr

/-- `SettlementTransfer(...)` construction: `__post_init__` validates
non-negativity then quantizes the amount. -/
def mkSettlementTransfer (f t : Person) (amount : ℚ) : Except Err SettlementTransfer :=
  if amount < 0 then .error .validation
  else .ok ⟨f, t, round_money amount 2⟩

/-- Creditor sort key `(-balance, name, str(id))`, compared lexicographically. -/
def credKey (e : Person × ℚ) : ℚ ×ₗ (String ×ₗ String) :=
  toLex (-e.2, toLex (e.1.name, e.1.id))

/-- Debtor sort key `(balance, name, str(id))`, compared lexicographically. -/
def debKey (e : Person × ℚ) : ℚ ×ₗ (String ×ₗ String) :=
  toLex (e.2, toLex (e.1.name, e.1.id))

/-- Output sort key
`(from.name, str(from.id), to.name, str(to.id))`, compared lexicographically. -/
def transferKey (t : SettlementTransfer) : String ×ₗ (String ×ₗ (String ×ₗ String)) :=
  toLex (t.from_person.name, toLex (t.from_person.id,
    toLex (t.to_person.name, t.to_person.id)))

/-- One iteration of the greedy loop in `compute.compute_minimal_transfers`:
`none` models the `break` (no creditors or no debtors); otherwise pick the
sorted heads, record a transfer, and update + re-round the two balances. -/
def cmtStep (tolerance : ℚ) (working : Balances) :
    Option (Except Err (SettlementTransfer × Balances)) :=
  let creditors := working.filter (fun e => decide (tolerance < e.2))
  let debtors := working.filter (fun e => decide (e.2 < -tolerance))
  match sortOn credKey creditors, sortOn debKey debtors with
  | (cp, cb) :: _, (dp, db) :: _ =>
    let amt := round_money (min cb (-db)) 2
    some (match mkSettlementTransfer dp cp amt with
      | .error e => .error e
      | .ok t =>
        let w1 := dmodify working cp (· - amt)
        let w2 := dmodify w1 dp (· + amt)
        let w3 := dmodify w2 cp (fun v => round_money v 2)
        let w4 := dmodify w3 dp (fun v => round_money v 2)
        .ok (t, w4))
  | _, _ => none

/-- The greedy `while True` loop, with explicit fuel: `none` means the fuel
ran out before the loop hit its `break` (never happens from
`compute_minimal_transfers`, whose fuel is one more than the loop's
iteration bound — see the termination theorems). -/
def cmtLoop (tolerance : ℚ) :
    ℕ → Balances → List SettlementTransfer →
    Option (Except Err (Balances × List SettlementTransfer))
  | 0, _, _ => none
  | fuel+1, working, transfers =>
    match cmtStep tolerance working with
    | none => some (.ok (working, transfers))
    | some (.error e) => some (.error e)
    | some (.ok (t, w)) => cmtLoop tolerance fuel w (transfers ++ [t])

/-- `compute.compute_minimal_transfers(balances, tolerance)`: run the greedy
loop on a working copy, check every remaining balance is within tolerance
(else `RoundingError`), and return the transfers re-sorted by
`(from.name, from.id, to.name, to.id)`. -/
def compute_minimal_transfers (balances : Balances) (tolerance : ℚ) :
    Option (Except Err (List SettlementTransfer)) :=
  (cmtLoop tolerance (balances.length + 1) balances []).map (fun r =>
    match r with
    | .error e => .error e
    | .ok (working, transfers) =>
      if working.any (fun e => decide (tolerance < |e.2|)) then .error .rounding
      else .ok (sortOn transferKey transfers))

/-- Applying a transfer list to a balance mapping the way the spec reads it:
subtract each amount from the creditor's balance and add it to the
debtor's. -/
def applyTransfers (balances : Balances) (ts : List SettlementTransfer) : Balances :=
  ts.foldl (fun b t =>
    dmodify (dmodify b t.to_person (· - t.amount)) t.from_person (· + t.amount)) balances

/-- A heap of dict objects, for stating the no-input-mutation properties:
references are indices, allocation appends. -/
abbrev Heap := List Balances

/-- Heap read through a reference. -/
def hget (h : Heap) (r : ℕ) : Balances := h.getD r []

/-- Heap write through a reference. -/
def hset (h : Heap) (r : ℕ) (d : Balances) : Heap := h.set r d

/-- Allocate a fresh dict object (`d.copy()` allocates). -/
def halloc (h : Heap) (d : Balances) : ℕ × Heap := (h.length, h ++ [d])

/-- Heap-level `distribute_remainder` inner loop: every write goes to the
`adjusted` reference. -/
def distLoopSt (inc : ℚ) : List Person → Heap → ℕ → ℚ → Heap
  | [], h, _, _ => h
  | p :: ps, h, r, rem =>
    if rem = 0 then h
    else distLoopSt inc ps (hset h r (dmodify (hget h r) p (· + inc))) r (rem - inc)

/-- `utils.distribute_remainder` against the heap model: reads the input
dict through its reference, allocates `adjusted = balances.copy()`, and
mutates only the fresh object. -/
def distribute_remainder_st (h : Heap) (r : ℕ) (remainder tolerance : ℚ) :
    Except Err ℕ × Heap :=
  let balances := hget h r
  if |remainder| > tolerance then (.error .rounding, h)
  else if remainder = 0 then
    let a := halloc h balances
    (.ok a.1, a.2)
  else
    let sorted_people := sortOn (distKey balances) (dkeys balances)
    let increment : ℚ := if remainder > 0 then 1/100 else -(1/100)
    let a := halloc h balances
    (.ok a.1, distLoopSt increment sorted_people a.2 a.1 remainder)

/-- `utils.ensure_zero_sum` against the heap model. -/
def ensure_zero_sum_st (h : Heap) (r : ℕ) (tolerance : ℚ) : Except Err ℕ × Heap :=
  let total := dsum (hget h r)
  if |total| ≤ tolerance then
    if total ≠ 0 then distribute_remainder_st h r total tolerance
    else
      let a := halloc h (hget h r)
      (.ok a.1, a.2)
  else (.error .rounding, h)

/-- The greedy loop against the heap model: every write goes to the working
copy's reference. -/
def cmtLoopSt (tolerance : ℚ) :
    ℕ → Heap → ℕ → List SettlementTransfer →
    Option (Except Err (List SettlementTransfer)) × Heap
  | 0, h, _, _ => (none, h)
  | fuel+1, h, r, ts =>
    match cmtStep tolerance (hget h r) with
    | none => (some (.ok ts), h)
    | some (.error e) => (some (.error e), h)
    | some (.ok (t, w)) => cmtLoopSt tolerance fuel (hset h r w) r (ts ++ [t])

/-- `compute.compute_minimal_transfers` against the heap model:
`working_balances = balances.copy()` allocates, and all writes target the
copy. -/
def compute_minimal_transfers_st (h : Heap) (r : ℕ) (tolerance : ℚ) :
    Option (Except Err (List SettlementTransfer)) × Heap :=
  let a := halloc h (hget h r)
  match cmtLoopSt tolerance ((hget h r).length + 1) a.2 a.1 [] with
  | (none, h3) => (none, h3)
  | (some (.error e), h3) => (some (.error e), h3)
  | (some (.ok ts), h3) =>
    if (hget h3 a.1).any (fun e => decide (tolerance < |e.2|)) then
      (some (.error .rounding), h3)
    else (some (.ok (sortOn transferKey ts)), h3)

theorem rhe_intCast (n : ℤ) : rhe (n : ℚ) = n := by
  unfold rhe
  rw [Int.floor_intCast]
  norm_num

theorem abs_sub_rhe (q : ℚ) : |q - rhe q| ≤ 1/2 := by
  have h0 : (⌊q⌋ : ℚ) ≤ q := Int.floor_le q
  have h1 : q < ⌊q⌋ + 1 := Int.lt_floor_add_one q
  unfold rhe
  split_ifs with hA hB hC
  · rw [abs_of_nonneg (by linarith)]; linarith
  · push_cast
    rw [abs_of_nonpos (by linarith)]; linarith
  · rw [abs_of_nonneg (by linarith)]; linarith
  · push_cast
    rw [abs_of_nonpos (by linarith)]; linarith

theorem rhe_nearest (q : ℚ) (m : ℤ) : |q - rhe q| ≤ |q - m| := by
  have h0 : (⌊q⌋ : ℚ) ≤ q := Int.floor_le q
  have h1 : q < ⌊q⌋ + 1 := Int.lt_floor_add_one q
  have hm : (m : ℚ) ≤ ⌊q⌋ ∨ (⌊q⌋ : ℚ) + 1 ≤ m := by
    rcases le_or_lt m ⌊q⌋ with h | h
    · left; exact_mod_cast h
    · right; exact_mod_cast h
  unfold rhe
  split_ifs with hA hB hC <;> rcases hm with hm | hm <;> push_cast
  · rw [abs_of_nonneg (by linarith), abs_of_nonneg (by linarith)]; linarith
  · rw [abs_of_nonneg (by linarith), abs_of_nonpos (by linarith)]; linarith
  · rw [abs_of_nonpos (by linarith), abs_of_nonneg (by linarith)]; linarith
  · rw [abs_of_nonpos (by linarith), abs_of_nonpos (by linarith)]; linarith
  · rw [abs_of_nonneg (by linarith), abs_of_nonneg (by linarith)]; linarith
  · rw [abs_of_nonneg (by linarith), abs_of_nonpos (by linarith)]; linarith
  · rw [abs_of_nonpos (by linarith), abs_of_nonneg (by linarith)]; linarith
  · rw [abs_of_nonpos (by linarith), abs_of_nonpos (by linarith)]; linarith

theorem rhe_tie_even (q : ℚ) (m : ℤ) (h : |q - m| = |q - rhe q|)
    (hne : m ≠ rhe q) : rhe q % 2 = 0 := by
  have h0 : (⌊q⌋ : ℚ) ≤ q := Int.floor_le q
  have h1 : q < ⌊q⌋ + 1 := Int.lt_floor_add_one q
  unfold rhe at h hne ⊢
  split_ifs at h hne ⊢ with hA hB hC
  · exfalso
    rcases lt_trichotomy m ⌊q⌋ with hm | hm | hm
    · have hc : (m : ℚ) + 1 ≤ ⌊q⌋ := by exact_mod_cast hm
      rw [abs_of_nonneg (by linarith), abs_of_nonneg (by linarith)] at h
      linarith
    · exact hne hm
    · have hc : (⌊q⌋ : ℚ) + 1 ≤ m := by exact_mod_cast hm
      rw [abs_of_nonpos (by linarith), abs_of_nonneg (by linarith)] at h
      linarith
  · exfalso
    rcases lt_trichotomy m (⌊q⌋ + 1) with hm | hm | hm
    · have hc : (m : ℚ) ≤ ⌊q⌋ := by exact_mod_cast Int.lt_add_one_iff.mp hm
      push_cast at h
      rw [abs_of_nonneg (by linarith), abs_of_nonpos (by linarith)] at h
      linarith
    · exact hne hm
    · have hm2 : ⌊q⌋ + 2 ≤ m := by omega
      have hc : (⌊q⌋ : ℚ) + 2 ≤ m := by exact_mod_cast hm2
      push_cast at h
      rw [abs_of_nonpos (by linarith), abs_of_nonpos (by linarith)] at h
      linarith
  · exact hC
  · omega

theorem rhe_nonneg (q : ℚ) (h : 0 ≤ q) : 0 ≤ rhe q := by
  have hfl : (0 : ℤ) ≤ ⌊q⌋ := Int.floor_nonneg.mpr h
  unfold rhe
  split_ifs <;> omega

theorem rhe_eq_zero (q : ℚ) (h : |q| ≤ 1/2) : rhe q = 0 := by
  have h1 : -(1/2) ≤ q := (abs_le.mp h).1
  have h2 : q ≤ 1/2 := (abs_le.mp h).2
  rcases le_or_lt 0 q with hq | hq
  · have hfl : ⌊q⌋ = 0 := Int.floor_eq_iff.mpr (by constructor <;> push_cast <;> linarith)
    unfold rhe
    rw [hfl]
    push_cast
    split_ifs <;> first | rfl | omega | (exfalso; linarith)
  · have hfl : ⌊q⌋ = -1 := Int.floor_eq_iff.mpr (by constructor <;> push_cast <;> linarith)
    unfold rhe
    rw [hfl]
    push_cast
    split_ifs <;> first | rfl | omega | (exfalso; linarith)
theorem round_money_is_multiple (a : ℚ) (p : ℤ) :
    ∃ m : ℤ, round_money a p = m / 10 ^ p :=
  ⟨rhe (a * 10 ^ p), rfl⟩

theorem abs_sub_round_money (a : ℚ) (p : ℤ) :
    |a - round_money a p| ≤ 1 / (2 * 10 ^ p) := by
  have ht : (0:ℚ) < 10 ^ p := zpow_pos (by norm_num) p
  have key : a - round_money a p = (a * 10 ^ p - rhe (a * 10 ^ p)) / 10 ^ p := by
    unfold round_money
    field_simp
  rw [key, abs_div, abs_of_pos ht, div_le_div_iff ht (by positivity)]
  have h := abs_sub_rhe (a * 10 ^ p)
  nlinarith [abs_nonneg (a * 10 ^ p - (rhe (a * 10 ^ p) : ℚ))]

theorem round_money_nearest (a : ℚ) (p : ℤ) (m : ℤ) :
    |a - round_money a p| ≤ |a - m / 10 ^ p| := by
  have ht : (0:ℚ) < 10 ^ p := zpow_pos (by norm_num) p
  have key : a - round_money a p = (a * 10 ^ p - rhe (a * 10 ^ p)) / 10 ^ p := by
    unfold round_money
    field_simp
  have key2 : a - m / 10 ^ p = (a * 10 ^ p - m) / 10 ^ p := by
    field_simp
  rw [key, key2, abs_div, abs_div, abs_of_pos ht]
  exact (div_le_div_right ht).mpr (rhe_nearest (a * 10 ^ p) m)

theorem round_money_tie_even (a : ℚ) (p : ℤ) (m : ℤ)
    (h : |a - m / 10 ^ p| = |a - round_money a p|)
    (hne : (m : ℚ) / 10 ^ p ≠ round_money a p) :
    rhe (a * 10 ^ p) % 2 = 0 := by
  have ht : (0:ℚ) < 10 ^ p := zpow_pos (by norm_num) p
  have key : a - round_money a p = (a * 10 ^ p - rhe (a * 10 ^ p)) / 10 ^ p := by
    unfold round_money
    field_simp
  have key2 : a - (m : ℚ) / 10 ^ p = (a * 10 ^ p - m) / 10 ^ p := by
    field_simp
  rw [key, key2, abs_div, abs_div, abs_of_pos ht, div_eq_div_iff ht.ne' ht.ne'] at h
  have h' : |a * 10 ^ p - (m:ℚ)| = |a * 10 ^ p - (rhe (a * 10 ^ p) : ℚ)| :=
    mul_right_cancel₀ ht.ne' h
  apply rhe_tie_even (a * 10 ^ p) m h'
  intro hc
  apply hne
  unfold round_money
  rw [hc]

theorem round_money_nonneg (a : ℚ) (p : ℤ) (h : 0 ≤ a) : 0 ≤ round_money a p := by
  have ht : (0:ℚ) < 10 ^ p := zpow_pos (by norm_num) p
  unfold round_money
  have : (0:ℚ) ≤ (rhe (a * 10 ^ p) : ℚ) := by
    exact_mod_cast rhe_nonneg _ (by positivity)
  positivity

theorem round_money_int_div (k : ℤ) : round_money ((k : ℚ) / 100) 2 = (k : ℚ) / 100 := by
  unfold round_money
  have h1 : ((k : ℚ) / 100) * 10 ^ (2:ℤ) = (k : ℚ) := by
    norm_num
  rw [h1, rhe_intCast]
  norm_num

theorem round_money_small (a : ℚ) (h : |a| ≤ 1/200) : round_money a 2 = 0 := by
  unfold round_money
  have h1 : |a * 10 ^ (2:ℤ)| ≤ 1/2 := by
    rw [abs_mul]
    have : |(10:ℚ) ^ (2:ℤ)| = 100 := by norm_num
    rw [this]
    linarith [abs_nonneg a]
  rw [rhe_eq_zero _ h1]
  norm_num
theorem dkeys_nil : dkeys ([] : Balances) = [] := rfl

theorem dkeys_dmodify (d : Balances) (p : Person) (f : ℚ → ℚ) :
    dkeys (dmodify d p f) = dkeys d := by
  induction d with
  | nil => rfl
  | cons e t ih =>
    unfold dmodify
    split_ifs with h
    · simp [dkeys]
    · simp only [dkeys, List.map_cons] at ih ⊢
      rw [ih]

theorem dget_dmodify_ne (d : Balances) (p q : Person) (f : ℚ → ℚ) (h : q ≠ p) :
    dget (dmodify d p f) q = dget d q := by
  induction d with
  | nil => rfl
  | cons e t ih =>
    unfold dmodify
    split_ifs with h1
    · have hne : e.1 ≠ q := by
        rw [h1]
        exact fun hc => h hc.symm
      unfold dget
      rw [if_neg hne, if_neg hne]
    · unfold dget
      split_ifs with h2
      · rfl
      · exact ih

theorem dget_dmodify_self (d : Balances) (p : Person) (f : ℚ → ℚ)
    (h : p ∈ dkeys d) : dget (dmodify d p f) p = f (dget d p) := by
  induction d with
  | nil => simp [dkeys] at h
  | cons e t ih =>
    unfold dmodify
    split_ifs with h1
    · unfold dget
      rw [if_pos h1, if_pos h1]
    · unfold dget
      rw [if_neg h1, if_neg h1]
      apply ih
      simp [dkeys] at h
      rcases h with h | h
      · exact absurd h.symm h1
      · simpa [dkeys] using h

theorem dmodify_not_mem (d : Balances) (p : Person) (f : ℚ → ℚ)
    (h : p ∉ dkeys d) : dmodify d p f = d := by
  induction d with
  | nil => rfl
  | cons e t ih =>
    simp only [dkeys, List.map_cons, List.mem_cons] at h
    push_neg at h
    unfold dmodify
    rw [if_neg (fun hc => h.1 hc.symm), ih (by simpa [dkeys] using h.2)]

theorem dmodify_value_id (d : Balances) (p : Person) (f : ℚ → ℚ)
    (h : f (dget d p) = dget d p) : dmodify d p f = d := by
  induction d with
  | nil => rfl
  | cons e t ih =>
    unfold dmodify
    unfold dget at h
    split_ifs with h1
    · rw [if_pos h1] at h
      rw [h]
    · rw [if_neg h1] at h
      rw [ih h]

theorem dsum_dmodify (d : Balances) (p : Person) (f : ℚ → ℚ) (h : p ∈ dkeys d) :
    dsum (dmodify d p f) = dsum d + (f (dget d p) - dget d p) := by
  induction d with
  | nil => simp [dkeys] at h
  | cons e t ih =>
    unfold dmodify dget
    split_ifs with h1
    · simp only [dsum, List.map_cons, List.sum_cons]
      ring
    · simp only [dkeys, List.map_cons, List.mem_cons] at h
      rcases h with h | h
      · exact absurd h.symm h1
      · simp only [dsum, List.map_cons, List.sum_cons] at ih ⊢
        rw [ih h]
        ring

theorem dget_mem (d : Balances) (p : Person) (h : p ∈ dkeys d) :
    (p, dget d p) ∈ d := by
  induction d with
  | nil => simp [dkeys] at h
  | cons e t ih =>
    unfold dget
    split_ifs with h1
    · exact List.mem_cons.mpr (Or.inl (by rw [← h1]))
    · right
      apply ih
      simp only [dkeys, List.map_cons, List.mem_cons] at h
      rcases h with h | h
      · exact absurd h.symm h1
      · simpa [dkeys] using h

theorem mem_nodup_eq_dget (d : Balances) (e : Person × ℚ) (hn : (dkeys d).Nodup)
    (h : e ∈ d) : e.2 = dget d e.1 := by
  induction d with
  | nil => simp at h
  | cons x t ih =>
    simp only [dkeys, List.map_cons, List.nodup_cons] at hn
    rcases List.mem_cons.mp h with h | h
    · rw [h]
      unfold dget
      rw [if_pos rfl]
    · unfold dget
      split_ifs with h1
      · exfalso
        apply hn.1
        rw [h1]
        exact List.mem_map.mpr ⟨e, h, rfl⟩
      · exact ih hn.2 h
theorem dget_dset_self (d : Balances) (p : Person) (v : ℚ) :
    dget (dset d p v) p = v := by
  induction d with
  | nil =>
    unfold dset dget
    rw [if_pos rfl]
  | cons e t ih =>
    unfold dset
    split_ifs with h1
    · unfold dget
      rw [if_pos h1]
    · unfold dget
      rw [if_neg h1]
      exact ih

theorem dget_dset_ne (d : Balances) (p q : Person) (v : ℚ) (h : q ≠ p) :
    dget (dset d p v) q = dget d q := by
  induction d with
  | nil =>
    unfold dset dget
    rw [if_neg (fun hc : p = q => h hc.symm)]
    rfl
  | cons e t ih =>
    unfold dset
    split_ifs with h1
    · unfold dget
      by_cases h2 : e.1 = q
      · exact absurd (h2.symm.trans h1) h
      · rw [if_neg h2, if_neg h2]
    · unfold dget
      by_cases h2 : e.1 = q
      · rw [if_pos h2, if_pos h2]
      · rw [if_neg h2, if_neg h2]
        exact ih

theorem dfind_dset_self {α : Type} (d : List (Person × α)) (p : Person) (v : α) :
    dfind (dset d p v) p = some v := by
  induction d with
  | nil =>
    unfold dset dfind
    rw [if_pos rfl]
  | cons e t ih =>
    unfold dset
    split_ifs with h1
    · unfold dfind
      rw [if_pos h1]
    · unfold dfind
      rw [if_neg h1]
      exact ih

theorem dfind_dset_ne {α : Type} (d : List (Person × α)) (p q : Person) (v : α)
    (h : q ≠ p) : dfind (dset d p v) q = dfind d q := by
  induction d with
  | nil =>
    unfold dset dfind
    rw [if_neg (fun hc : p = q => h hc.symm)]
    rfl
  | cons e t ih =>
    unfold dset
    split_ifs with h1
    · unfold dfind
      by_cases h2 : e.1 = q
      · exact absurd (h2.symm.trans h1) h
      · rw [if_neg h2, if_neg h2]
    · unfold dfind
      by_cases h2 : e.1 = q
      · rw [if_pos h2, if_pos h2]
      · rw [if_neg h2, if_neg h2]
        exact ih
theorem dkeys_dset {α : Type} (d : List (Person × α)) (p : Person) (v : α) :
    dkeys (dset d p v) = if p ∈ dkeys d then dkeys d else dkeys d ++ [p] := by
  induction d with
  | nil => simp [dset, dkeys]
  | cons e t ih =>
    unfold dset
    split_ifs with h1 h2 h2
    · simp [dkeys]
    · exfalso
      apply h2
      simp [dkeys, h1.symm]
    · have hp2 : p ∈ dkeys t := by
        simp only [dkeys, List.map_cons, List.mem_cons] at h2
        rcases h2 with h | h
        · exact absurd h.symm h1
        · simpa [dkeys] using h
      show e.1 :: dkeys (dset t p v) = dkeys (e :: t)
      rw [ih, if_pos hp2]
      rfl
    · have hp2 : p ∉ dkeys t := by
        intro hc
        apply h2
        simp only [dkeys, List.map_cons, List.mem_cons]
        exact Or.inr (by simpa [dkeys] using hc)
      show e.1 :: dkeys (dset t p v) = dkeys (e :: t) ++ [p]
      rw [ih, if_neg hp2]
      rfl

theorem sortOn_perm {α β : Type} [LinearOrder β] (key : α → β) (l : List α) :
    (sortOn key l).Perm l :=
  List.perm_insertionSort _ l

theorem sortOn_sorted {α β : Type} [LinearOrder β] (key : α → β) (l : List α) :
    List.Sorted (fun a b => key a ≤ key b) (sortOn key l) := by
  haveI : IsTotal α (fun a b => key a ≤ key b) := ⟨fun a b => le_total (key a) (key b)⟩
  haveI : IsTrans α (fun a b => key a ≤ key b) := ⟨fun _ _ _ h1 h2 => le_trans h1 h2⟩
  exact List.sorted_insertionSort _ l

theorem sortOn_eq_nil_iff {α β : Type} [LinearOrder β] (key : α → β) (l : List α) :
    sortOn key l = [] ↔ l = [] := by
  rw [← List.length_eq_zero, (sortOn_perm key l).length_eq, List.length_eq_zero]

theorem sortOn_head_min {α β : Type} [LinearOrder β] (key : α → β) (l : List α)
    (x : α) (t : List α) (h : sortOn key l = x :: t) :
    x ∈ l ∧ ∀ y ∈ l, key x ≤ key y := by
  have hperm := sortOn_perm key l
  rw [h] at hperm
  constructor
  · exact hperm.mem_iff.mp (List.mem_cons_self x t)
  · intro y hy
    rcases List.mem_cons.mp (hperm.symm.mem_iff.mp hy) with hy1 | hy1
    · rw [hy1]
    · have hs := sortOn_sorted key l
      rw [h] at hs
      exact List.rel_of_sorted_cons hs y hy1

theorem sorted_nodupkeys_unique {α β : Type} [LinearOrder β] (key : α → β) :
    ∀ (l₁ l₂ : List α), l₁.Perm l₂ →
      List.Sorted (fun a b => key a ≤ key b) l₁ →
      List.Sorted (fun a b => key a ≤ key b) l₂ →
      l₁.Pairwise (fun a b => key a ≠ key b) → l₁ = l₂
  | [], [], _, _, _, _ => rfl
  | [], b :: t₂, hp, _, _, _ => absurd (hp.symm.mem_iff.mp (List.mem_cons_self b t₂)) (List.not_mem_nil b)
  | a :: t₁, [], hp, _, _, _ => absurd (hp.mem_iff.mp (List.mem_cons_self a t₁)) (List.not_mem_nil a)
  | a :: t₁, b :: t₂, hp, hs₁, hs₂, hd => by
    have hab : a = b := by
      by_contra hne
      have hb1 : b ∈ a :: t₁ := hp.symm.mem_iff.mp (List.mem_cons_self b t₂)
      have hbt : b ∈ t₁ := by
        rcases List.mem_cons.mp hb1 with h | h
        · exact absurd h.symm hne
        · exact h
      have ha2 : a ∈ b :: t₂ := hp.mem_iff.mp (List.mem_cons_self a t₁)
      have h1 : key a ≤ key b := List.rel_of_sorted_cons hs₁ b hbt
      have h2 : key b ≤ key a := by
        rcases List.mem_cons.mp ha2 with h | h
        · rw [h]
        · exact List.rel_of_sorted_cons hs₂ a h
      exact (List.rel_of_pairwise_cons hd hbt) (le_antisymm h1 h2)
    subst hab
    have hp' : t₁.Perm t₂ := hp.cons_inv
    rw [sorted_nodupkeys_unique key t₁ t₂ hp' hs₁.of_cons hs₂.of_cons hd.of_cons]

theorem sortOn_eq_of_perm {α β : Type} [LinearOrder β] (key : α → β)
    (l₁ l₂ : List α) (h : l₁.Perm l₂)
    (hd : l₁.Pairwise (fun a b => key a ≠ key b)) :
    sortOn key l₁ = sortOn key l₂ := by
  apply sorted_nodupkeys_unique key
  · exact (sortOn_perm key l₁).trans (h.trans (sortOn_perm key l₂).symm)
  · exact sortOn_sorted key l₁
  · exact sortOn_sorted key l₂
  · exact ((sortOn_perm key l₁).pairwise_iff (fun hab hc => hab hc.symm)).mpr hd
theorem isCent_zero : isCent 0 :=
  ⟨0, by norm_num⟩

theorem isCent_add {a b : ℚ} (ha : isCent a) (hb : isCent b) : isCent (a + b) := by
  obtain ⟨k, rfl⟩ := ha
  obtain ⟨m, rfl⟩ := hb
  exact ⟨k + m, by push_cast; ring⟩

theorem isCent_neg {a : ℚ} (ha : isCent a) : isCent (-a) := by
  obtain ⟨k, rfl⟩ := ha
  exact ⟨-k, by push_cast; ring⟩

theorem isCent_sub {a b : ℚ} (ha : isCent a) (hb : isCent b) : isCent (a - b) := by
  rw [sub_eq_add_neg]
  exact isCent_add ha (isCent_neg hb)

theorem isCent_min {a b : ℚ} (ha : isCent a) (hb : isCent b) : isCent (min a b) := by
  rcases min_choice a b with h | h <;> rw [h]
  · exact ha
  · exact hb

theorem isCent_round_money (a : ℚ) : isCent (round_money a 2) := by
  refine ⟨rhe (a * 10 ^ (2:ℤ)), ?_⟩
  unfold round_money
  norm_num

theorem round_money_of_isCent {q : ℚ} (h : isCent q) : round_money q 2 = q := by
  obtain ⟨k, rfl⟩ := h
  exact round_money_int_div k

theorem abs_sub_round2 (a : ℚ) : |a - round_money a 2| ≤ 1/200 := by
  have h := abs_sub_round_money a 2
  have he : (1:ℚ) / (2 * 10 ^ (2:ℤ)) = 1/200 := by norm_num
  rw [he] at h
  exact h

theorem rhe_add_half (n : ℤ) : rhe ((n : ℚ) + 1/2) = if n % 2 = 0 then n else n + 1 := by
  have hfl : ⌊(n : ℚ) + 1/2⌋ = n := by
    rw [Int.floor_eq_iff]
    constructor <;> push_cast <;> linarith
  unfold rhe
  rw [hfl]
  have h2 : (n : ℚ) + 1/2 - n = 1/2 := by ring
  rw [h2]
  norm_num

theorem dmodify_eq_map (d : Balances) (p : Person) (f : ℚ → ℚ)
    (hn : (dkeys d).Nodup) :
    dmodify d p f = d.map (fun e => if e.1 = p then (e.1, f e.2) else e) := by
  induction d with
  | nil => rfl
  | cons e t ih =>
    simp only [dkeys, List.map_cons, List.nodup_cons] at hn
    unfold dmodify
    split_ifs with h1
    · simp only [List.map_cons, if_pos h1]
      congr 1
      have : ∀ a ∈ t, (if a.1 = p then (a.1, f a.2) else a) = a := by
        intro a ha
        rw [if_neg]
        intro hc
        exact hn.1 (List.mem_map.mpr ⟨a, ha, by rw [hc, h1]⟩)
      rw [List.map_congr_left this]
      simp
    · simp only [List.map_cons, if_neg h1]
      rw [ih (by simpa [dkeys] using hn.2)]

theorem countP_lt_of_exists {α : Type} (l : List α) (p q : α → Bool)
    (hle : ∀ a ∈ l, p a = true → q a = true)
    (hex : ∃ a ∈ l, q a = true ∧ p a = false) :
    l.countP p < l.countP q := by
  induction l with
  | nil => simp at hex
  | cons x t ih =>
    rw [List.countP_cons, List.countP_cons]
    rcases hex with ⟨a, ha, hqa, hpa⟩
    rcases List.mem_cons.mp ha with rfl | hat
    · have hmono : t.countP p ≤ t.countP q :=
        List.countP_mono_left (fun b hb => hle b (List.mem_cons_of_mem _ hb))
      simp [hpa, hqa]
      omega
    · have hrec := ih (fun b hb h => hle b (List.mem_cons_of_mem _ hb) h) ⟨a, hat, hqa, hpa⟩
      have hx : (if p x then 1 else 0) ≤ (if q x then 1 else 0) := by
        by_cases hpx : p x = true
        · simp [hpx, hle x (List.mem_cons_self x t) hpx]
        · simp only [Bool.not_eq_true] at hpx
          simp [hpx]
      omega
theorem round_money_tie_cases :
    round_money (2109/200) 2 = 527/50 ∧ round_money (2111/200) 2 = 264/25 := by
  constructor
  · unfold round_money
    have h1 : (2109/200 : ℚ) * 10 ^ (2:ℤ) = (1054 : ℤ) + 1/2 := by norm_num
    rw [h1, rhe_add_half]
    norm_num
  · unfold round_money
    have h1 : (2111/200 : ℚ) * 10 ^ (2:ℤ) = (1055 : ℤ) + 1/2 := by norm_num
    rw [h1, rhe_add_half]
    norm_num

/-- C3: `round_money(amount, places)` performs round-half-to-even
quantization at the given place count: the result is a multiple of
`10 ^ (-places)`, it is a nearest such multiple (within half a quantum, and
no other multiple is closer), and any genuine tie is resolved to the even
scaled integer; in particular at 2 places `0.5 ↦ 0.50`, `1.5 ↦ 1.50`,
`2.5 ↦ 2.50`, `10.545 ↦ 10.54` and `10.555 ↦ 10.56`. -/
theorem round_money_half_even :
    (∀ (a : ℚ) (p : ℤ),
      (∃ m : ℤ, round_money a p = (m : ℚ) / 10 ^ p) ∧
      |a - round_money a p| ≤ 1 / (2 * 10 ^ p) ∧
      (∀ m : ℤ, |a - (m : ℚ) / 10 ^ p| = |a - round_money a p| →
        (m : ℚ) / 10 ^ p ≠ round_money a p → rhe (a * 10 ^ p) % 2 = 0)) ∧
    round_money (1/2) 2 = 1/2 ∧ round_money (3/2) 2 = 3/2 ∧
    round_money (5/2) 2 = 5/2 ∧
    round_money (2109/200) 2 = 527/50 ∧ round_money (2111/200) 2 = 264/25 := by
  refine ⟨fun a p => ⟨round_money_is_multiple a p, abs_sub_round_money a p,
    round_money_tie_even a p⟩, ?_, ?_, ?_, round_money_tie_cases.1, round_money_tie_cases.2⟩
  · have h := round_money_int_div 50
    norm_num at h
    exact h
  · have h := round_money_int_div 150
    norm_num at h
    exact h
  · have h := round_money_int_div 250
    norm_num at h
    exact h

/-- Witness for C3: the tie-to-even clause applied at the concrete input
`a = 1/2`, `p = 0`, competing integer `m = 1` (`0.5` is equidistant from
`0` and `1` and the code picks the even side `0`). -/
theorem round_money_half_even_witness : rhe ((1/2 : ℚ) * 10 ^ (0:ℤ)) % 2 = 0 := by
  have hval : round_money (1/2) 0 = 0 := by
    unfold round_money
    have h1 : (1/2 : ℚ) * 10 ^ (0:ℤ) = 1/2 := by norm_num
    rw [h1, rhe_eq_zero (1/2) (by rw [abs_of_nonneg] <;> norm_num)]
    norm_num
  refine (round_money_half_even.1 (1/2) 0).2.2 1 ?_ ?_
  · rw [hval]
    norm_num
  · rw [hval]
    norm_num
/-- C1: the reconciliation code does not return a zero-sum mapping. At the
in-tolerance input `{Alice: 0.01}` (total `0.01`, tolerance `0.02`),
`ensure_zero_sum` hands the total to `distribute_remainder`, which adds a
same-signed `+0.01` increment instead of cancelling it: the result
`{Alice: 0.02}` sums to `0.02 = 2 × total`, not `0` (the sign of the
distributed increment is flipped relative to what the function's own
docstring and the spec promise). -/
theorem ensure_zero_sum_sign_bug :
    dsum [(⟨"Alice", "a"⟩, (1:ℚ)/100)] = 1/100 ∧
    |(1:ℚ)/100| ≤ 2/100 ∧
    ensure_zero_sum [(⟨"Alice", "a"⟩, 1/100)] (2/100) =
      .ok [(⟨"Alice", "a"⟩, 2/100)] ∧
    dsum [(⟨"Alice", "a"⟩, (2:ℚ)/100)] = 2/100 ∧ ((2:ℚ)/100) ≠ 0 := by
  have habs : |(1:ℚ)/100| = 1/100 := abs_of_nonneg (by norm_num)
  refine ⟨by simp [dsum], by rw [habs]; norm_num, ?_, by simp [dsum], by norm_num⟩
  simp only [ensure_zero_sum, distribute_remainder, dsum, dget, dkeys, distKey, sortOn,
    List.insertionSort, List.orderedInsert, distLoop, dmodify, List.map_cons, List.map_nil,
    List.sum_cons, List.sum_nil]
  norm_num
  rw [habs]
  norm_num

/-- C7 counterexample: `Person` equality is NOT "by id regardless of name".
At the concrete pair `Person("Alice", id="u")`, `Person("Bob", id="u")`
(same id, different names) the dataclass equality is `False` while the ids
are equal, so the claimed equivalence fails. -/
theorem person_eq_not_by_id_only :
    ¬ (Person.eq ⟨"Alice", "u"⟩ ⟨"Bob", "u"⟩ = true ↔
       Person.id ⟨"Alice", "u"⟩ = Person.id ⟨"Bob", "u"⟩) := by
  decide

/-- C7 amended: the dataclass-generated equality compares all fields, so two
`Person` values are equal exactly when both name and id agree (hence people
with different ids are distinct even when they share a name, and a shared
id with different names does not give equality). -/
theorem person_eq_by_name_and_id (p q : Person) :
    (Person.eq p q = true ↔ p.name = q.name ∧ p.id = q.id) ∧
    (Person.eq p q = true ↔ p = q) := by
  have h1 : Person.eq p q = true ↔ p.name = q.name ∧ p.id = q.id := by
    simp [Person.eq]
  refine ⟨h1, h1.trans ?_⟩
  constructor
  · rintro ⟨hn, hi⟩
    cases p
    cases q
    simp_all
  · rintro rfl
    exact ⟨rfl, rfl⟩

/-- C10: `Event.add_activity` is atomic on failure: every error exit (payer
not a member, participant not a member, or any `Activity.__post_init__`
validation failure) leaves the event's people and activities unchanged, and
on success the only change is the new activity appended at the end. -/
theorem add_activity_atomic (e : Event) (description : String) (amount : ℚ)
    (payer : Payer) (participants : List Person) (strat : SplitStrategy)
    (w sh : Option (List (Person × ℚ))) :
    (∀ err ev', add_activity e description amount payer participants strat w sh =
        (.error err, ev') → ev'.people = e.people ∧ ev'.activities = e.activities) ∧
    (∀ a ev', add_activity e description amount payer participants strat w sh =
        (.ok a, ev') → ev'.people = e.people ∧ ev'.activities = e.activities ++ [a]) := by
  constructor
  · intro err ev' h
    simp only [add_activity] at h
    split_ifs at h with h1
    · unfold addActivityRest at h
      split_ifs at h with h2
      · injection h with h3 h4
        rw [← h4]
        exact ⟨rfl, rfl⟩
      · cases hmk : mkActivity description amount payer participants strat w sh with
        | error e2 =>
          rw [hmk] at h
          injection h with h3 h4
          rw [← h4]
          exact ⟨rfl, rfl⟩
        | ok a2 =>
          rw [hmk] at h
          injection h with h3 h4
          exact Except.noConfusion h3
    · injection h with h3 h4
      rw [← h4]
      exact ⟨rfl, rfl⟩
  · intro a ev' h
    simp only [add_activity] at h
    split_ifs at h with h1
    · unfold addActivityRest at h
      split_ifs at h with h2
      · injection h with h3 h4
        exact Except.noConfusion h3
      · cases hmk : mkActivity description amount payer participants strat w sh with
        | error e2 =>
          rw [hmk] at h
          injection h with h3 h4
          exact Except.noConfusion h3
        | ok a2 =>
          rw [hmk] at h
          injection h with h3 h4
          injection h3 with h5
          rw [← h4, h5]
          exact ⟨rfl, rfl⟩
    · injection h with h3 h4
      exact Except.noConfusion h3
theorem round_money_claim6_value : round_money (90 * ((7/10) / (201/200))) 2 = 6269/100 := by
  have harg : (90 * ((7/10) / (201/200)) : ℚ) * 10 ^ (2:ℤ) = 420000/67 := by
    norm_num
  have hfloor : ⌊(420000:ℚ)/67⌋ = 6268 := by
    rw [Int.floor_eq_iff]
    constructor <;> push_cast <;> norm_num
  unfold round_money
  rw [harg]
  unfold rhe
  rw [hfloor]
  rw [if_neg (by push_cast; norm_num), if_pos (by push_cast; norm_num)]
  push_cast
  norm_num

/-- C6 counterexample: weights are NOT renormalized unconditionally at
construction. With amount `90` and pre-normalization weights
`{Bob: 0.7, Carol: 0.305}` (sum `1.005`, within `0.01` of `1`) the
constructed activity keeps the weights as given, and Bob's weighted share is
`round(90 × 0.7) = 63.00`, whereas the claimed always-renormalize rule
would store `0.7/1.005` and give `round(90 × 0.7/1.005) = 62.69`. -/
theorem weighted_renormalization_not_unconditional :
    mkActivity "Museum" 90 (.single ⟨"Alice","a"⟩) [⟨"Bob","b"⟩, ⟨"Carol","c"⟩]
        .WEIGHTED (some [(⟨"Bob","b"⟩, 7/10), (⟨"Carol","c"⟩, 61/200)]) none =
      .ok ⟨"Museum", 90, .single ⟨"Alice","a"⟩, [⟨"Bob","b"⟩, ⟨"Carol","c"⟩],
        .WEIGHTED, some [(⟨"Bob","b"⟩, 7/10), (⟨"Carol","c"⟩, 61/200)], none⟩ ∧
    (([((⟨"Bob","b"⟩ : Person), (7:ℚ)/10), (⟨"Carol","c"⟩, 61/200)].map Prod.snd).sum
      = 201/200) ∧
    (some [((⟨"Bob","b"⟩ : Person), (7:ℚ)/10), (⟨"Carol","c"⟩, 61/200)] ≠
      some ([((⟨"Bob","b"⟩ : Person), (7:ℚ)/10), (⟨"Carol","c"⟩, 61/200)].map
        (fun e => (e.1, e.2 / (201/200))))) ∧
    compute_weighted_share ⟨"Museum", 90, .single ⟨"Alice","a"⟩,
        [⟨"Bob","b"⟩, ⟨"Carol","c"⟩], .WEIGHTED,
        some [(⟨"Bob","b"⟩, 7/10), (⟨"Carol","c"⟩, 61/200)], none⟩ ⟨"Bob","b"⟩ =
      .ok 63 ∧
    round_money (90 * ((7/10) / (201/200))) 2 = 6269/100 ∧ (63 : ℚ) ≠ 6269/100 := by
  refine ⟨?_, by norm_num, by norm_num, ?_, round_money_claim6_value, by norm_num⟩
  · have habs : |(1:ℚ)/200| = 1/200 := abs_of_nonneg (by norm_num)
    simp only [mkActivity, mkActivityStrategy]
    norm_num
    rw [habs]
    norm_num
    simp [Char.isWhitespace]
  · have h63 : round_money (63:ℚ) 2 = 63 := by
      have h := round_money_int_div 6300
      norm_num at h
      exact h
    simp only [compute_weighted_share, dkeys, dget]
    norm_num [h63]
    simp

set_option maxHeartbeats 2000000 in
/-- C6 amended: for a WEIGHTED activity the weights are renormalized
(each divided by their sum) only when the sum is more than `0.01` away from
`1`; otherwise they are stored as given. Construction fails with
`ValidationError` whenever the weight sum is not positive, a participant's
weighted share is the activity amount times their stored weight, rounded,
and the concrete example `amount 90`, weights `{Bob: 2, Carol: 1}` does
renormalize (to `2/3`, `1/3`) and yields shares `60.00` and `30.00`. -/
theorem weighted_renormalization_conditional :
    (∀ desc (amount : ℚ) payer participants (w : List (Person × ℚ)) sh a,
      mkActivity desc amount payer participants .WEIGHTED (some w) sh = .ok a →
      (if |(w.map Prod.snd).sum - 1| > 1/100
       then a.weights = some (w.map (fun e => (e.1, e.2 / (w.map Prod.snd).sum)))
       else a.weights = some w)) ∧
    (∀ desc (amount : ℚ) payer participants (w : List (Person × ℚ)) sh,
      (w.map Prod.snd).sum ≤ 0 →
      mkActivity desc amount payer participants .WEIGHTED (some w) sh =
        .error .validation) ∧
    (∀ (a : Activity) (w : List (Person × ℚ)) (p : Person),
      a.weights = some w → w ≠ [] → p ∈ dkeys w →
      compute_weighted_share a p = .ok (round_money (a.amount * dget w p) 2)) ∧
    (mkActivity "Museum" 90 (.single ⟨"Alice","a"⟩) [⟨"Bob","b"⟩, ⟨"Carol","c"⟩]
        .WEIGHTED (some [(⟨"Bob","b"⟩, 2), (⟨"Carol","c"⟩, 1)]) none =
      .ok ⟨"Museum", 90, .single ⟨"Alice","a"⟩, [⟨"Bob","b"⟩, ⟨"Carol","c"⟩],
        .WEIGHTED, some [(⟨"Bob","b"⟩, 2/3), (⟨"Carol","c"⟩, 1/3)], none⟩ ∧
      compute_weighted_share ⟨"Museum", 90, .single ⟨"Alice","a"⟩,
          [⟨"Bob","b"⟩, ⟨"Carol","c"⟩], .WEIGHTED,
          some [(⟨"Bob","b"⟩, 2/3), (⟨"Carol","c"⟩, 1/3)], none⟩ ⟨"Bob","b"⟩ = .ok 60 ∧
      compute_weighted_share ⟨"Museum", 90, .single ⟨"Alice","a"⟩,
          [⟨"Bob","b"⟩, ⟨"Carol","c"⟩], .WEIGHTED,
          some [(⟨"Bob","b"⟩, 2/3), (⟨"Carol","c"⟩, 1/3)], none⟩ ⟨"Carol","c"⟩ = .ok 30) := by
  refine ⟨?_, ?_, ?_, ?_, ?_, ?_⟩
  · intro desc amount payer participants w sh a h
    cases payer with
    | single p =>
      simp only [mkActivity, mkActivityStrategy] at h
      split_ifs at h with h1 h2 h3 h4 h5 h6 h7
      all_goals first
        | exact Except.noConfusion h
        | (rw [if_pos h6]
           injection h with h8
           rw [← h8])
        | (rw [if_neg h6]
           injection h with h8
           rw [← h8])
    | multi l =>
      simp only [mkActivity, mkActivityStrategy] at h
      split_ifs at h with h1 h2 h3 h4 ha hb h5 h6 h7
      all_goals first
        | exact Except.noConfusion h
        | (rw [if_pos h6]
           injection h with h8
           rw [← h8])
        | (rw [if_neg h6]
           injection h with h8
           rw [← h8])
  · intro desc amount payer participants w sh hsum
    cases payer with
    | single p =>
      simp only [mkActivity, mkActivityStrategy]
      split_ifs with h1 h2 h3 h4 h5 h6 h7
      all_goals first
        | rfl
        | exact absurd h7 (by linarith)
        | (exfalso
           have hab := (abs_le.mp (not_lt.mp h6)).1
           linarith)
    | multi l =>
      simp only [mkActivity, mkActivityStrategy]
      split_ifs with h1 h2 h3 h4 ha hb h5 h6 h7
      all_goals first
        | rfl
        | exact absurd h7 (by linarith)
        | (exfalso
           have hab := (abs_le.mp (not_lt.mp h6)).1
           linarith)
  · intro a w p ha hw hp
    simp only [compute_weighted_share, ha]
    rw [if_neg hw, if_neg (not_not_intro hp)]
  · have habs2 : |(2:ℚ)| = 2 := abs_of_nonneg (by norm_num)
    simp only [mkActivity, mkActivityStrategy]
    norm_num
    simp [Char.isWhitespace]
  · have h60 : round_money (60:ℚ) 2 = 60 := by
      have h := round_money_int_div 6000
      norm_num at h
      exact h
    simp only [compute_weighted_share, dkeys, dget]
    norm_num [h60]
    simp
  · have h30 : round_money (30:ℚ) 2 = 30 := by
      have h := round_money_int_div 3000
      norm_num at h
      exact h
    simp only [compute_weighted_share, dkeys, dget]
    norm_num [h30]
    try simp
    try exact h30

/-- Witness for C6 amended: the not-positive-sum clause applied at a
concrete weight mapping with sum `-1`. -/
theorem weighted_renormalization_conditional_witness :
    mkActivity "d" 1 (.single ⟨"Alice","a"⟩) [⟨"Alice","a"⟩] .WEIGHTED
      (some [(⟨"Alice","a"⟩, -1)]) none = .error .validation :=
  weighted_renormalization_conditional.2.1 "d" 1 (.single ⟨"Alice","a"⟩)
    [⟨"Alice","a"⟩] [(⟨"Alice","a"⟩, -1)] none (by norm_num)

/-- Witness for C10: the atomicity theorem applied to a concrete failing
call (payer not a member of an empty event). -/
theorem add_activity_atomic_witness :
    (⟨[], []⟩ : Event).people = (⟨[], []⟩ : Event).people ∧
    (⟨[], []⟩ : Event).activities = (⟨[], []⟩ : Event).activities :=
  (add_activity_atomic ⟨[], []⟩ "d" 100 (.single ⟨"Alice", "a"⟩) [] .EQUAL none none).1
    .validation ⟨[], []⟩ (by simp [add_activity])
/-- C8 counterexample: a person in the event but in no activity does NOT
always end with net balance exactly 0. In the two-person event
`people = [Aa, Alice]` with one activity (amount `0.01`, paid `0.02` by
Alice as a multi-payer entry, Alice sole participant), the rounded balances
sum to `+0.01`, and the reconciliation step hands this remainder to the
person with the smallest absolute balance — the uninvolved person `Aa`,
whose final net balance is `0.01 ≠ 0`. -/
theorem uninvolved_person_nonzero_net :
    ((⟨"Aa","u"⟩ : Person) ∉
      (Activity.mk "d" (1/100) (.multi [(⟨"Alice","a"⟩, 2/100)]) [⟨"Alice","a"⟩]
        .EQUAL none none).participants ∧
     (⟨"Aa","u"⟩ : Person) ∉
      dkeys (Activity.mk "d" (1/100) (.multi [(⟨"Alice","a"⟩, 2/100)]) [⟨"Alice","a"⟩]
        .EQUAL none none).get_payers) ∧
    compute_net_balances ⟨[⟨"Aa","u"⟩, ⟨"Alice","a"⟩],
      [⟨"d", 1/100, .multi [(⟨"Alice","a"⟩, 2/100)], [⟨"Alice","a"⟩], .EQUAL, none, none⟩]⟩ =
      .ok [(⟨"Aa","u"⟩, 1/100), (⟨"Alice","a"⟩, 1/100)] ∧
    dget [(⟨"Aa","u"⟩, (1:ℚ)/100), (⟨"Alice","a"⟩, 1/100)] ⟨"Aa","u"⟩ = 1/100 ∧
    ((1:ℚ)/100) ≠ 0 := by
  refine ⟨⟨by simp [Activity.get_payers], by simp [Activity.get_payers, dkeys]⟩, ?_,
    by simp [dget], by norm_num⟩
  have hr1 : round_money ((1:ℚ)/100) 2 = 1/100 := by
    have h := round_money_int_div 1
    norm_num at h
    exact h
  have hr0 : round_money (0:ℚ) 2 = 0 := by
    have h := round_money_int_div 0
    norm_num at h
    exact h
  have habs : |(1:ℚ)/100| = 1/100 := abs_of_nonneg (by norm_num)
  have hs1 : ("Aa" = "Alice") = False := by simp
  have hs2 : ("u" = "a") = False := by simp
  have hs3 : ("Alice" = "Aa") = False := by simp
  have hs4 : ("a" = "u") = False := by simp
  have hlex : toLex ((0:ℚ), toLex (("Aa":String), ("u":String))) ≤
      toLex ((1:ℚ)/100, toLex (("Alice":String), ("a":String))) := by
    rw [Prod.Lex.le_iff]
    left
    norm_num
  simp only [compute_net_balances, computeRawBalances, netBalanceStep, compute_all_shares,
    compute_participant_share, compute_equal_share, Activity.get_payers, ensure_zero_sum,
    distribute_remainder, distLoop, distKey, sortOn, List.insertionSort, List.orderedInsert,
    dset, dget, dsum, dkeys, dmodify, dmodifyE, List.foldlM, List.foldl, bind, Except.bind,
    pure, Except.pure, List.map_cons, List.map_nil, List.sum_cons, List.sum_nil]
  norm_num [hr1, hr0, habs, hs1, hs2, hs3, hs4]
  norm_num [hr1, hr0, habs, hs1, hs2, hs3, hs4, dget, dmodify, distLoop, dsum]
  rw [if_pos hlex]
  norm_num [distLoop, dmodify, hs1, hs2, hs3, hs4]
theorem dget_zero_init (people : List Person) (init : Balances)
    (h : ∀ q, dget init q = 0) (q : Person) :
    dget (people.foldl (fun d p => dset d p 0) init) q = 0 := by
  induction people generalizing init with
  | nil => exact h q
  | cons p ps ih =>
    rw [List.foldl_cons]
    apply ih
    intro r
    by_cases hr : r = p
    · rw [hr, dget_dset_self]
    · rw [dget_dset_ne _ _ _ _ hr]
      exact h r

theorem dkeys_zero_init (people : List Person) (init : Balances) (q : Person) :
    q ∈ dkeys (people.foldl (fun d p => dset d p 0) init) ↔
      q ∈ dkeys init ∨ q ∈ people := by
  induction people generalizing init with
  | nil => simp
  | cons p ps ih =>
    rw [List.foldl_cons, ih, dkeys_dset]
    by_cases hp : p ∈ dkeys init
    · rw [if_pos hp]
      simp only [List.mem_cons]
      constructor
      · rintro (h | h)
        · exact Or.inl h
        · exact Or.inr (Or.inr h)
      · rintro (h | rfl | h)
        · exact Or.inl h
        · exact Or.inl hp
        · exact Or.inr h
    · rw [if_neg hp]
      simp only [List.mem_append, List.mem_cons, List.not_mem_nil, or_false]
      constructor
      · rintro ((h | h) | h)
        · exact Or.inl h
        · exact Or.inr (Or.inl h)
        · exact Or.inr (Or.inr h)
      · rintro (h | h | h)
        · exact Or.inl (Or.inl h)
        · exact Or.inl (Or.inr h)
        · exact Or.inr h

theorem nodup_dkeys_zero_init (people : List Person) (init : Balances)
    (h : (dkeys init).Nodup) :
    (dkeys (people.foldl (fun d p => dset d p 0) init)).Nodup := by
  induction people generalizing init with
  | nil => exact h
  | cons p ps ih =>
    rw [List.foldl_cons]
    apply ih
    rw [dkeys_dset]
    split_ifs with hp
    · exact h
    · rw [List.nodup_append]
      refine ⟨h, List.nodup_singleton p, ?_⟩
      intro x hx hxp
      rw [List.mem_singleton] at hxp
      exact hp (hxp ▸ hx)

theorem dkeys_map_round (d : Balances) (g : ℚ → ℚ) :
    dkeys (d.map (fun e => (e.1, g e.2))) = dkeys d := by
  induction d with
  | nil => rfl
  | cons e t ih =>
    simp only [dkeys, List.map_cons] at ih ⊢
    rw [ih]

theorem dget_map_round (d : Balances) (g : ℚ → ℚ) (p : Person)
    (h : p ∈ dkeys d) :
    dget (d.map (fun e => (e.1, g e.2))) p = g (dget d p) := by
  induction d with
  | nil => simp [dkeys] at h
  | cons e t ih =>
    simp only [List.map_cons]
    unfold dget
    split_ifs with h1
    · rfl
    · apply ih
      simp only [dkeys, List.map_cons, List.mem_cons] at h
      rcases h with h | h
      · exact absurd h.symm h1
      · simpa [dkeys] using h

theorem foldlM_dmodifyE_preserves (U : Person) (l : List (Person × ℚ))
    (f : Person × ℚ → ℚ → ℚ) :
    ∀ (b b' : Balances),
      (l.foldlM (fun b e => dmodifyE b e.1 (f e)) b) = .ok b' →
      U ∉ dkeys l →
      dget b' U = dget b U ∧ dkeys b' = dkeys b := by
  induction l with
  | nil =>
    intro b b' h _
    injection h with h1
    rw [← h1]
    exact ⟨rfl, rfl⟩
  | cons e t ih =>
    intro b b' h hU
    simp only [dkeys, List.map_cons, List.mem_cons] at hU
    push_neg at hU
    rw [List.foldlM_cons] at h
    unfold dmodifyE at h
    split_ifs at h with hmem
    · simp only [bind, Except.bind] at h
      have := ih (dmodify b e.1 (f e)) b' h (by simpa [dkeys] using hU.2)
      refine ⟨?_, ?_⟩
      · rw [this.1, dget_dmodify_ne _ _ _ _ hU.1]
      · rw [this.2, dkeys_dmodify]
    · simp only [bind, Except.bind] at h
      exact Except.noConfusion h

theorem dkeys_compute_all_shares (a : Activity) (sh : Balances)
    (h : compute_all_shares a = .ok sh) :
    ∀ p ∈ dkeys sh, p ∈ a.participants := by
  have key : ∀ (l : List Person) (d0 : Balances) (res : Balances),
      (l.foldlM (fun d p => do
        let s ← compute_participant_share a p
        pure (dset d p s)) d0) = .ok res →
      ∀ p ∈ dkeys res, p ∈ dkeys d0 ∨ p ∈ l := by
    intro l
    induction l with
    | nil =>
      intro d0 res h p hp
      injection h with h1
      rw [← h1] at hp
      exact Or.inl hp
    | cons x t ih =>
      intro d0 res h p hp
      rw [List.foldlM_cons] at h
      cases hs : compute_participant_share a x with
      | error e =>
        rw [hs] at h
        simp only [bind, Except.bind] at h
        exact Except.noConfusion h
      | ok s =>
        rw [hs] at h
        simp only [bind, Except.bind, pure, Except.pure] at h
        rcases ih (dset d0 x s) res h p hp with h2 | h2
        · rw [dkeys_dset] at h2
          split_ifs at h2 with hx
          · exact Or.inl h2
          · rcases List.mem_append.mp h2 with h3 | h3
            · exact Or.inl h3
            · rw [List.mem_singleton] at h3
              exact Or.inr (h3 ▸ List.mem_cons_self x t)
        · exact Or.inr (List.mem_cons_of_mem _ h2)
  intro p hp
  unfold compute_all_shares at h
  rcases key a.participants [] sh h p hp with h2 | h2
  · simp [dkeys] at h2
  · exact h2

theorem distLoop_dget_not_mem (inc : ℚ) (q : Person) :
    ∀ (ps : List Person) (d : Balances) (rem : ℚ),
      q ∉ ps → dget (distLoop inc ps d rem).1 q = dget d q := by
  intro ps
  induction ps with
  | nil => intro d rem _; rfl
  | cons p t ih =>
    intro d rem hq
    unfold distLoop
    split_ifs with h1
    · rfl
    · rw [ih _ _ (fun hc => hq (List.mem_cons_of_mem _ hc))]
      rw [dget_dmodify_ne _ _ _ _ (by
        intro hc
        exact hq (by rw [hc]; exact List.mem_cons_self p t))]

theorem distLoop_dget (inc : ℚ) (q : Person) :
    ∀ (ps : List Person) (d : Balances) (rem : ℚ), ps.Nodup →
      dget (distLoop inc ps d rem).1 q = dget d q ∨
      dget (distLoop inc ps d rem).1 q = dget d q + inc := by
  intro ps
  induction ps with
  | nil => intro d rem _; exact Or.inl rfl
  | cons p t ih =>
    intro d rem hn
    unfold distLoop
    split_ifs with h1
    · exact Or.inl rfl
    · rcases List.nodup_cons.mp hn with ⟨hp, ht⟩
      by_cases hq : q = p
      · subst hq
        rw [distLoop_dget_not_mem inc q t _ _ hp]
        by_cases hmem : q ∈ dkeys d
        · rw [dget_dmodify_self _ _ _ hmem]
          exact Or.inr rfl
        · rw [dmodify_not_mem _ _ _ hmem]
          exact Or.inl rfl
      · rcases ih (dmodify d p (· + inc)) (rem - inc) ht with h2 | h2
        · rw [h2, dget_dmodify_ne _ _ _ _ hq]
          exact Or.inl rfl
        · rw [h2, dget_dmodify_ne _ _ _ _ hq]
          exact Or.inr rfl
theorem round_money_zero (p : ℤ) : round_money 0 p = 0 := by
  unfold round_money
  rw [zero_mul]
  rw [show ((0:ℚ)) = ((0:ℤ):ℚ) from by norm_num, rhe_intCast]
  norm_num

theorem activitiesFold_preserves (U : Person) (acts : List Activity) :
    ∀ (b b' : Balances),
      (acts.foldlM netBalanceStep b) = .ok b' →
      (∀ a ∈ acts, U ∉ a.participants) →
      (∀ a ∈ acts, U ∉ dkeys a.get_payers) →
      dget b' U = dget b U ∧ dkeys b' = dkeys b := by
  induction acts with
  | nil =>
    intro b b' h _ _
    injection h with h1
    rw [← h1]
    exact ⟨rfl, rfl⟩
  | cons a t ih =>
    intro b b' h hnp hpay
    rw [List.foldlM_cons] at h
    simp only [netBalanceStep] at h
    cases hsh : compute_all_shares a with
    | error er =>
      rw [hsh] at h
      simp only [bind, Except.bind] at h
      exact Except.noConfusion h
    | ok sh =>
      rw [hsh] at h
      simp only [bind, Except.bind] at h
      cases hf1 : sh.foldlM (fun b e => dmodifyE b e.1 (· - e.2)) b with
      | error er =>
        rw [hf1] at h
        exact Except.noConfusion h
      | ok bal2 =>
        rw [hf1] at h
        dsimp only at h
        cases hf2 : a.get_payers.foldlM (fun b e => dmodifyE b e.1 (· + e.2)) bal2 with
        | error er =>
          rw [hf2] at h
          exact Except.noConfusion h
        | ok bal3 =>
          rw [hf2] at h
          dsimp only at h
          have hUsh : U ∉ dkeys sh := by
            intro hc
            exact hnp a (List.mem_cons_self a t) (dkeys_compute_all_shares a sh hsh U hc)
          have p1 := foldlM_dmodifyE_preserves U sh _ b bal2 hf1 hUsh
          have p2 := foldlM_dmodifyE_preserves U a.get_payers _ bal2 bal3 hf2
            (hpay a (List.mem_cons_self a t))
          have p3 := ih bal3 b' h (fun x hx => hnp x (List.mem_cons_of_mem _ hx))
            (fun x hx => hpay x (List.mem_cons_of_mem _ hx))
          refine ⟨?_, ?_⟩
          · rw [p3.1, p2.1, p1.1]
          · rw [p3.2, p2.2, p1.2]

theorem computeRawBalances_uninvolved (e : Event) (U : Person) (raw : Balances)
    (hU : U ∈ e.people)
    (hnp : ∀ a ∈ e.activities, U ∉ a.participants)
    (hpay : ∀ a ∈ e.activities, U ∉ dkeys a.get_payers)
    (hok : computeRawBalances e = .ok raw) :
    dget raw U = 0 ∧ U ∈ dkeys raw ∧ (dkeys raw).Nodup := by
  simp only [computeRawBalances] at hok
  cases hfold : e.activities.foldlM netBalanceStep
      (e.people.foldl (fun d p => dset d p 0) []) with
  | error er =>
    rw [hfold] at hok
    simp only [bind, Except.bind] at hok
    exact Except.noConfusion hok
  | ok bal1 =>
    rw [hfold] at hok
    simp only [bind, Except.bind, pure, Except.pure] at hok
    injection hok with h1
    have hp := activitiesFold_preserves U e.activities _ bal1 hfold hnp hpay
    have hz : dget bal1 U = 0 := by
      rw [hp.1]
      exact dget_zero_init e.people [] (fun _ => rfl) U
    have hk : U ∈ dkeys bal1 := by
      rw [hp.2, dkeys_zero_init]
      exact Or.inr hU
    have hnd : (dkeys bal1).Nodup := by
      rw [hp.2]
      exact nodup_dkeys_zero_init e.people [] List.nodup_nil
    rw [← h1]
    have hgeq : dget (List.map (fun e => (e.1, round_money e.2 2)) bal1) U =
        round_money (dget bal1 U) 2 :=
      dget_map_round bal1 (fun v => round_money v 2) U hk
    have hkeq : dkeys (List.map (fun e => (e.1, round_money e.2 2)) bal1) = dkeys bal1 :=
      dkeys_map_round bal1 (fun v => round_money v 2)
    refine ⟨?_, ?_, ?_⟩
    · rw [hgeq, hz, round_money_zero]
    · rw [hkeq]
      exact hk
    · rw [hkeq]
      exact hnd

theorem ensure_zero_sum_dget_bound (d : Balances) (tol : ℚ) (bal : Balances)
    (U : Person) (hn : (dkeys d).Nodup)
    (h : ensure_zero_sum d tol = .ok bal) :
    (dget bal U = dget d U ∨ dget bal U = dget d U + 1/100 ∨
      dget bal U = dget d U - 1/100) ∧
    (dsum d = 0 → bal = d) := by
  simp only [ensure_zero_sum] at h
  split_ifs at h with h1 h2
  · simp only [distribute_remainder] at h
    have hsortnd : (sortOn (distKey d) (dkeys d)).Nodup :=
      ((sortOn_perm (distKey d) (dkeys d)).nodup_iff).mpr hn
    rw [if_neg (not_lt.mpr h1), if_neg h2] at h
    injection h with h6
    refine ⟨?_, fun hc => absurd hc h2⟩
    by_cases hpos : dsum d > 0
    · rw [if_pos hpos] at h6
      have hd := distLoop_dget (1/100) U
        (sortOn (distKey d) (dkeys d)) d (dsum d) hsortnd
      rw [h6] at hd
      rcases hd with hd | hd
      · exact Or.inl hd
      · exact Or.inr (Or.inl hd)
    · rw [if_neg hpos] at h6
      have hd := distLoop_dget (-(1/100)) U
        (sortOn (distKey d) (dkeys d)) d (dsum d) hsortnd
      rw [h6] at hd
      rcases hd with hd | hd
      · exact Or.inl hd
      · right
        right
        rw [hd]
        ring
  · injection h with h5
    rw [← h5]
    exact ⟨Or.inl rfl, fun _ => rfl⟩
theorem summaryPairFold_preserves (U : Person) (acts : List Activity) :
    ∀ (pr pr' : Balances × Balances),
      (acts.foldlM summaryPairStep pr) = .ok pr' →
      (∀ a ∈ acts, U ∉ a.participants) →
      (∀ a ∈ acts, U ∉ dkeys a.get_payers) →
      dget pr'.1 U = dget pr.1 U ∧ dget pr'.2 U = dget pr.2 U := by
  induction acts with
  | nil =>
    intro pr pr' h _ _
    injection h with h1
    rw [← h1]
    exact ⟨rfl, rfl⟩
  | cons a t ih =>
    intro pr pr' h hnp hpay
    rw [List.foldlM_cons] at h
    simp only [summaryPairStep, bind, Except.bind] at h
    cases hf1 : a.get_payers.foldlM (fun b e => dmodifyE b e.1 (· + e.2)) pr.1 with
    | error er =>
      rw [hf1] at h
      exact Except.noConfusion h
    | ok paid =>
      rw [hf1] at h
      dsimp only at h
      cases hsh : compute_all_shares a with
      | error er =>
        rw [hsh] at h
        exact Except.noConfusion h
      | ok sh =>
        rw [hsh] at h
        dsimp only at h
        cases hf2 : sh.foldlM (fun b e => dmodifyE b e.1 (· + e.2)) pr.2 with
        | error er =>
          rw [hf2] at h
          exact Except.noConfusion h
        | ok owed =>
          rw [hf2] at h
          dsimp only [pure, Except.pure] at h
          have hUsh : U ∉ dkeys sh := by
            intro hc
            exact hnp a (List.mem_cons_self a t) (dkeys_compute_all_shares a sh hsh U hc)
          have p1 := foldlM_dmodifyE_preserves U a.get_payers _ pr.1 paid hf1
            (hpay a (List.mem_cons_self a t))
          have p2 := foldlM_dmodifyE_preserves U sh _ pr.2 owed hf2 hUsh
          have p3 := ih (paid, owed) pr' h (fun x hx => hnp x (List.mem_cons_of_mem _ hx))
            (fun x hx => hpay x (List.mem_cons_of_mem _ hx))
          exact ⟨p3.1.trans p1.1, p3.2.trans p2.1⟩

theorem summaryBuild (bal : Balances) (val : Person → SummaryEntry) (U : Person) :
    ∀ (people : List Person) (s0 s : List (Person × SummaryEntry)),
      (people.foldlM
        (fun (s : List (Person × SummaryEntry)) (p : Person) =>
          if p ∈ dkeys bal then Except.ok (dset s p (val p))
          else Except.error Err.keyErr) s0) = .ok s →
      (U ∈ people → dfind s U = some (val U)) ∧
      (U ∉ people → dfind s U = dfind s0 U) := by
  intro people
  induction people with
  | nil =>
    intro s0 s h
    injection h with h1
    rw [← h1]
    exact ⟨fun hc => absurd hc (List.not_mem_nil U), fun _ => rfl⟩
  | cons p t ih =>
    intro s0 s h
    rw [List.foldlM_cons] at h
    split_ifs at h with hmem
    · simp only [bind, Except.bind] at h
      have ihs := ih (dset s0 p (val p)) s h
      constructor
      · intro hU
        by_cases hUp : U = p
        · by_cases hUt : U ∈ t
          · exact ihs.1 hUt
          · rw [ihs.2 hUt, hUp, dfind_dset_self]
        · rcases List.mem_cons.mp hU with h2 | h2
          · exact absurd h2 hUp
          · exact ihs.1 h2
      · intro hU
        have hUp : U ≠ p := fun hc => hU (by rw [hc]; exact List.mem_cons_self p t)
        have hUt : U ∉ t := fun hc => hU (List.mem_cons_of_mem _ hc)
        rw [ihs.2 hUt, dfind_dset_ne _ _ _ _ hUp]
    · simp only [bind, Except.bind] at h
      exact Except.noConfusion h

theorem compute_settlement_summary_uninvolved (e : Event) (U : Person)
    (bal : Balances) (s : List (Person × SummaryEntry))
    (hU : U ∈ e.people)
    (hnp : ∀ a ∈ e.activities, U ∉ a.participants)
    (hpay : ∀ a ∈ e.activities, U ∉ dkeys a.get_payers)
    (hok : compute_settlement_summary e bal = .ok s) :
    dfind s U = some ⟨0, 0, dget bal U⟩ := by
  simp only [compute_settlement_summary] at hok
  cases hacc : e.activities.foldlM summaryPairStep
      (e.people.foldl (fun d p => dset d p 0) [],
       e.people.foldl (fun d p => dset d p 0) []) with
  | error er =>
    rw [hacc] at hok
    simp only [bind, Except.bind] at hok
    exact Except.noConfusion hok
  | ok acc =>
    rw [hacc] at hok
    simp only [bind, Except.bind] at hok
    have hpair := summaryPairFold_preserves U e.activities _ acc hacc hnp hpay
    have hpaid : dget acc.1 U = 0 := by
      rw [hpair.1]
      exact dget_zero_init e.people [] (fun _ => rfl) U
    have howed : dget acc.2 U = 0 := by
      rw [hpair.2]
      exact dget_zero_init e.people [] (fun _ => rfl) U
    have hbuild := summaryBuild bal
      (fun p => ⟨round_money (dget acc.1 p) 2, round_money (dget acc.2 p) 2, dget bal p⟩)
      U (sortOn (fun p => toLex (p.name, p.id)) e.people) [] s hok
    have hUs : U ∈ sortOn (fun p => toLex (p.name, p.id)) e.people :=
      (sortOn_perm _ e.people).mem_iff.mpr hU
    rw [hbuild.1 hUs]
    dsimp only
    rw [hpaid, howed, round_money_zero]
/-- C8 amended: a person in the event's people list who appears in no
activity (neither payer nor participant) has, in the settlement summary,
`paid = 0.00` and `owed = 0.00`, and their `net` equals their entry in the
reconciled balances; that entry is exactly `0` whenever the rounded
balances already sum to `0` (no remainder distributed), and in general is
off by at most one `0.01` remainder increment: `|net| ≤ 0.01`. -/
theorem uninvolved_person_summary
    (e : Event) (U : Person) (bal : Balances)
    (hU : U ∈ e.people)
    (hnp : ∀ a ∈ e.activities, U ∉ a.participants)
    (hpay : ∀ a ∈ e.activities, U ∉ dkeys a.get_payers)
    (hok : compute_net_balances e = .ok bal) :
    |dget bal U| ≤ 1/100 ∧
    (∀ raw, computeRawBalances e = .ok raw → dsum raw = 0 → dget bal U = 0) ∧
    (∀ s, compute_settlement_summary e bal = .ok s →
      dfind s U = some ⟨0, 0, dget bal U⟩) := by
  simp only [compute_net_balances] at hok
  cases hraw : computeRawBalances e with
  | error er =>
    rw [hraw] at hok
    simp only [bind, Except.bind] at hok
    exact Except.noConfusion hok
  | ok raw0 =>
    rw [hraw] at hok
    simp only [bind, Except.bind] at hok
    obtain ⟨hz, hk, hnd⟩ := computeRawBalances_uninvolved e U raw0 hU hnp hpay hraw
    obtain ⟨hcase, hzero⟩ := ensure_zero_sum_dget_bound raw0 (2/100) bal U hnd hok
    refine ⟨?_, ?_, ?_⟩
    · rcases hcase with h | h | h
      · rw [h, hz, abs_zero]
        norm_num
      · rw [h, hz, zero_add, abs_of_nonneg (by norm_num : (0:ℚ) ≤ 1/100)]
      · rw [h, hz, zero_sub, abs_neg, abs_of_nonneg (by norm_num : (0:ℚ) ≤ 1/100)]
    · intro raw hraw2 hsum
      injection hraw2 with h2
      rw [← h2] at hsum
      rw [hzero hsum, hz]
    · intro s hs
      exact compute_settlement_summary_uninvolved e U bal s hU hnp hpay hs

/-- Witness for C8 amended: the solo event `people = [Aa]`, no activities,
whose balance mapping computes to `{Aa: 0}`. -/
theorem uninvolved_person_summary_witness :
    |dget [((⟨"Aa","u"⟩ : Person), (0:ℚ))] ⟨"Aa","u"⟩| ≤ 1/100 ∧
    (∀ raw, computeRawBalances ⟨[⟨"Aa","u"⟩], []⟩ = .ok raw → dsum raw = 0 →
      dget [((⟨"Aa","u"⟩ : Person), (0:ℚ))] ⟨"Aa","u"⟩ = 0) ∧
    (∀ s, compute_settlement_summary ⟨[⟨"Aa","u"⟩], []⟩
        [((⟨"Aa","u"⟩ : Person), (0:ℚ))] = .ok s →
      dfind s ⟨"Aa","u"⟩ =
        some ⟨0, 0, dget [((⟨"Aa","u"⟩ : Person), (0:ℚ))] ⟨"Aa","u"⟩⟩) :=
  uninvolved_person_summary ⟨[⟨"Aa","u"⟩], []⟩ ⟨"Aa","u"⟩ [(⟨"Aa","u"⟩, 0)]
    (by simp) (by simp) (by simp)
    (by
      simp only [compute_net_balances, computeRawBalances, netBalanceStep, ensure_zero_sum,
        List.foldlM, List.foldl, dset, dsum, bind, Except.bind, pure, Except.pure,
        List.map_cons, List.map_nil, List.sum_cons, List.sum_nil, round_money_zero]
      norm_num)
theorem transferKey_inj (t1 t2 : SettlementTransfer)
    (h : transferKey t1 = transferKey t2) :
    t1.from_person = t2.from_person ∧ t1.to_person = t2.to_person := by
  unfold transferKey at h
  rw [toLex_inj] at h
  injection h with ha hb
  rw [toLex_inj] at hb
  injection hb with hc hd
  rw [toLex_inj] at hd
  injection hd with he hf
  constructor
  · calc t1.from_person = ⟨t1.from_person.name, t1.from_person.id⟩ := rfl
      _ = ⟨t2.from_person.name, t2.from_person.id⟩ := by rw [ha, hc]
      _ = t2.from_person := rfl
  · calc t1.to_person = ⟨t1.to_person.name, t1.to_person.id⟩ := rfl
      _ = ⟨t2.to_person.name, t2.to_person.id⟩ := by rw [he, hf]
      _ = t2.to_person := rfl

theorem cmtStep_ok (tol : ℚ) (w : Balances) (t : SettlementTransfer) (w' : Balances)
    (htol : 0 ≤ tol)
    (h : cmtStep tol w = some (.ok (t, w'))) :
    ∃ cb db,
      (t.to_person, cb) ∈ w ∧ (t.from_person, db) ∈ w ∧ tol < cb ∧ db < -tol ∧
      t.amount = round_money (min cb (-db)) 2 ∧
      w' = dmodify (dmodify (dmodify (dmodify w t.to_person (· - t.amount))
            t.from_person (· + t.amount))
          t.to_person (fun v => round_money v 2))
        t.from_person (fun v => round_money v 2) ∧
      (∀ y ∈ w, tol < y.2 → credKey (t.to_person, cb) ≤ credKey y) ∧
      (∀ y ∈ w, y.2 < -tol → debKey (t.from_person, db) ≤ debKey y) := by
  simp only [cmtStep] at h
  cases hcs : sortOn credKey (w.filter (fun e => decide (tol < e.2))) with
  | nil =>
    rw [hcs] at h
    exact Option.noConfusion h
  | cons ce cr =>
    obtain ⟨cp, cb⟩ := ce
    rw [hcs] at h
    cases hds : sortOn debKey (w.filter (fun e => decide (e.2 < -tol))) with
    | nil =>
      rw [hds] at h
      exact Option.noConfusion h
    | cons de dr =>
      obtain ⟨dp, db⟩ := de
      rw [hds] at h
      dsimp only at h
      have hcmem := sortOn_head_min credKey _ _ _ hcs
      have hdmem := sortOn_head_min debKey _ _ _ hds
      have hcfil := List.mem_filter.mp hcmem.1
      have hdfil := List.mem_filter.mp hdmem.1
      have hcb : tol < cb := of_decide_eq_true hcfil.2
      have hdb : db < -tol := of_decide_eq_true hdfil.2
      have hamt0 : 0 ≤ round_money (min cb (-db)) 2 :=
        round_money_nonneg _ _ (le_min (by linarith) (by linarith))
      simp only [mkSettlementTransfer] at h
      rw [if_neg (not_lt.mpr hamt0)] at h
      injection h with h1
      injection h1 with h2
      injection h2 with h3 h4
      have hidem : round_money (round_money (min cb (-db)) 2) 2 =
          round_money (min cb (-db)) 2 :=
        round_money_of_isCent (isCent_round_money _)
      refine ⟨cb, db, ?_, ?_, hcb, hdb, ?_, ?_, ?_, ?_⟩
      · rw [← h3]
        exact hcfil.1
      · rw [← h3]
        exact hdfil.1
      · rw [← h3]
        exact hidem.symm ▸ rfl
      · rw [← h4, ← h3]
        simp only [hidem]
      · intro y hy hty
        rw [← h3]
        exact hcmem.2 y (List.mem_filter.mpr ⟨hy, decide_eq_true hty⟩)
      · intro y hy hty
        rw [← h3]
        exact hdmem.2 y (List.mem_filter.mpr ⟨hy, decide_eq_true hty⟩)
theorem cmtStep_measure (tol : ℚ) (w : Balances) (t : SettlementTransfer) (w' : Balances)
    (htol : 0 ≤ tol) (hn : (dkeys w).Nodup)
    (h : cmtStep tol w = some (.ok (t, w'))) :
    dkeys w' = dkeys w ∧
    (dget w' t.to_person = 0 ∨ dget w' t.from_person = 0) ∧
    w'.countP (fun e => decide (tol < |e.2|)) <
      w.countP (fun e => decide (tol < |e.2|)) := by
  obtain ⟨cb, db, hcmem, hdmem, hcb, hdb, hamt, hw', hmin1, hmin2⟩ :=
    cmtStep_ok tol w t w' htol h
  have hcpk : t.to_person ∈ dkeys w := List.mem_map.mpr ⟨(t.to_person, cb), hcmem, rfl⟩
  have hdpk : t.from_person ∈ dkeys w := List.mem_map.mpr ⟨(t.from_person, db), hdmem, rfl⟩
  have hcbval : dget w t.to_person = cb := (mem_nodup_eq_dget w (t.to_person, cb) hn hcmem).symm
  have hdbval : dget w t.from_person = db :=
    (mem_nodup_eq_dget w (t.from_person, db) hn hdmem).symm
  have hne : t.to_person ≠ t.from_person := by
    intro hc
    rw [hc, hdbval] at hcbval
    rw [hcbval] at hdb
    linarith
  have hk1 : dkeys (dmodify w t.to_person (· - t.amount)) = dkeys w := dkeys_dmodify _ _ _
  have hk2 : dkeys (dmodify (dmodify w t.to_person (· - t.amount))
      t.from_person (· + t.amount)) = dkeys w := by rw [dkeys_dmodify, hk1]
  have hk3 : dkeys (dmodify (dmodify (dmodify w t.to_person (· - t.amount))
      t.from_person (· + t.amount)) t.to_person (fun v => round_money v 2)) = dkeys w := by
    rw [dkeys_dmodify, hk2]
  have hkeys : dkeys w' = dkeys w := by rw [hw', dkeys_dmodify, hk3]
  have hvc : dget w' t.to_person = round_money (cb - t.amount) 2 := by
    rw [hw', dget_dmodify_ne _ _ _ _ hne,
      dget_dmodify_self _ _ _ (by rw [hk2]; exact hcpk),
      dget_dmodify_ne _ _ _ _ hne,
      dget_dmodify_self _ _ _ hcpk, hcbval]
  have hvd : dget w' t.from_person = round_money (db + t.amount) 2 := by
    rw [hw', dget_dmodify_self _ _ _ (by rw [hk3]; exact hdpk),
      dget_dmodify_ne _ _ _ _ (fun hc => hne hc.symm),
      dget_dmodify_self _ _ _ (by rw [hk1]; exact hdpk),
      dget_dmodify_ne _ _ _ _ (fun hc => hne hc.symm), hdbval]
  have hzero : dget w' t.to_person = 0 ∨ dget w' t.from_person = 0 := by
    rcases le_total cb (-db) with hmin | hmin
    · left
      rw [hvc, hamt, min_eq_left hmin]
      exact round_money_small _ (abs_sub_round2 cb)
    · right
      rw [hvd, hamt, min_eq_right hmin]
      apply round_money_small
      rw [show db + round_money (-db) 2 = -(-db - round_money (-db) 2) from by ring, abs_neg]
      exact abs_sub_round2 (-db)
  refine ⟨hkeys, hzero, ?_⟩
  -- rewrite the four in-place updates as entrywise maps (keys are unique)
  have hm1 := dmodify_eq_map w t.to_person (· - t.amount) hn
  have hm2 := dmodify_eq_map (dmodify w t.to_person (· - t.amount))
    t.from_person (· + t.amount) (by rw [hk1]; exact hn)
  have hm3 := dmodify_eq_map (dmodify (dmodify w t.to_person (· - t.amount))
    t.from_person (· + t.amount)) t.to_person (fun v => round_money v 2)
    (by rw [hk2]; exact hn)
  have hm4 := dmodify_eq_map (dmodify (dmodify (dmodify w t.to_person (· - t.amount))
    t.from_person (· + t.amount)) t.to_person (fun v => round_money v 2))
    t.from_person (fun v => round_money v 2) (by rw [hk3]; exact hn)
  rw [hw', hm4, hm3, hm2, hm1, List.map_map, List.map_map, List.map_map, List.countP_map]
  apply countP_lt_of_exists
  · intro e he hpe
    by_cases hc : e.1 = t.to_person
    · have : e = (t.to_person, cb) := by
        calc e = (e.1, e.2) := rfl
          _ = (t.to_person, cb) := by
            rw [hc]
            congr 1
            rw [show e.2 = dget w e.1 from mem_nodup_eq_dget w e hn he, hc, hcbval]
      rw [this]
      simp only [decide_eq_true_eq]
      calc tol < cb := hcb
        _ ≤ |cb| := le_abs_self cb
    · by_cases hd : e.1 = t.from_person
      · have : e = (t.from_person, db) := by
          calc e = (e.1, e.2) := rfl
            _ = (t.from_person, db) := by
              rw [hd]
              congr 1
              rw [show e.2 = dget w e.1 from mem_nodup_eq_dget w e hn he, hd, hdbval]
        rw [this]
        simp only [decide_eq_true_eq]
        calc tol < -db := by linarith
          _ ≤ |db| := neg_le_abs db
      · dsimp only [Function.comp] at hpe
        rw [if_neg hc, if_neg hd, if_neg hc, if_neg hd] at hpe
        exact hpe
  · rcases le_total cb (-db) with hmin | hmin
    · refine ⟨(t.to_person, cb), hcmem, ?_, ?_⟩
      · simp only [decide_eq_true_eq]
        calc tol < cb := hcb
          _ ≤ |cb| := le_abs_self cb
      · dsimp only [Function.comp]
        rw [if_pos rfl]
        dsimp only
        rw [if_neg hne]
        dsimp only
        rw [if_pos rfl]
        dsimp only
        rw [if_neg hne]
        dsimp only
        have hv0 : round_money (cb - t.amount) 2 = 0 := by
          rw [hamt, min_eq_left hmin]
          exact round_money_small _ (abs_sub_round2 cb)
        rw [hv0]
        simp only [abs_zero, decide_eq_false_iff_not, not_lt]
        exact htol
    · refine ⟨(t.from_person, db), hdmem, ?_, ?_⟩
      · simp only [decide_eq_true_eq]
        calc tol < -db := by linarith
          _ ≤ |db| := neg_le_abs db
      · have hne' : t.from_person ≠ t.to_person := fun hc => hne hc.symm
        dsimp only [Function.comp]
        rw [if_neg hne']
        dsimp only
        rw [if_pos rfl]
        dsimp only
        rw [if_neg hne']
        dsimp only
        rw [if_pos rfl]
        dsimp only
        have hv0 : round_money (db + t.amount) 2 = 0 := by
          rw [hamt, min_eq_right hmin]
          apply round_money_small
          rw [show db + round_money (-db) 2 = -(-db - round_money (-db) 2) from by ring, abs_neg]
          exact abs_sub_round2 (-db)
        rw [hv0]
        simp only [abs_zero, decide_eq_false_iff_not, not_lt]
        exact htol

theorem dget_not_mem (d : Balances) (p : Person) (h : p ∉ dkeys d) : dget d p = 0 := by
  induction d with
  | nil => rfl
  | cons e t ih =>
    simp only [dkeys, List.map_cons, List.mem_cons, not_or] at h
    rw [dget, if_neg (fun hc => h.1 hc.symm)]
    exact ih h.2

theorem mem_dmodify (d : Balances) (p : Person) (f : ℚ → ℚ) (e : Person × ℚ)
    (h : e ∈ dmodify d p f) : e ∈ d ∨ ∃ v, (p, v) ∈ d ∧ e = (p, f v) := by
  induction d with
  | nil => simp [dmodify] at h
  | cons x t ih =>
    rw [dmodify] at h
    by_cases hx : x.1 = p
    · rw [if_pos hx] at h
      rcases List.mem_cons.mp h with he | he
      · right
        refine ⟨x.2, ?_, by rw [he, hx]⟩
        rw [← hx]
        exact List.mem_cons_self _ _
      · left
        exact List.mem_cons_of_mem _ he
    · rw [if_neg hx] at h
      rcases List.mem_cons.mp h with he | he
      · left
        rw [he]
        exact List.mem_cons_self _ _
      · rcases ih he with h1 | ⟨v, hv, he2⟩
        · left
          exact List.mem_cons_of_mem _ h1
        · right
          exact ⟨v, List.mem_cons_of_mem _ hv, he2⟩

theorem isCent_dget (d : Balances) (p : Person) (h : ∀ e ∈ d, isCent e.2) :
    isCent (dget d p) := by
  induction d with
  | nil => exact isCent_zero
  | cons x t ih =>
    rw [dget]
    by_cases hx : x.1 = p
    · rw [if_pos hx]
      exact h x (List.mem_cons_self _ _)
    · rw [if_neg hx]
      exact ih (fun e he => h e (List.mem_cons_of_mem _ he))

theorem cmtStep_cases (tol : ℚ) (w : Balances) (htol : 0 ≤ tol) :
    cmtStep tol w = none ∨ ∃ t w', cmtStep tol w = some (Except.ok (t, w')) := by
  simp only [cmtStep]
  cases hcs : sortOn credKey (w.filter (fun e => decide (tol < e.2))) with
  | nil => exact Or.inl rfl
  | cons ce cr =>
    obtain ⟨cp, cb⟩ := ce
    cases hds : sortOn debKey (w.filter (fun e => decide (e.2 < -tol))) with
    | nil => exact Or.inl rfl
    | cons de dr =>
      obtain ⟨dp, db⟩ := de
      have hcmem := sortOn_head_min credKey _ _ _ hcs
      have hdmem := sortOn_head_min debKey _ _ _ hds
      have hcb : tol < cb := of_decide_eq_true (List.mem_filter.mp hcmem.1).2
      have hdb : db < -tol := of_decide_eq_true (List.mem_filter.mp hdmem.1).2
      have hamt0 : 0 ≤ round_money (min cb (-db)) 2 :=
        round_money_nonneg _ _ (le_min (by linarith) (by linarith))
      right
      dsimp only
      simp only [mkSettlementTransfer]
      rw [if_neg (not_lt.mpr hamt0)]
      exact ⟨_, _, rfl⟩

theorem cmtStep_cent_run (tol : ℚ) (w : Balances) (t : SettlementTransfer) (w' : Balances)
    (htol : 0 ≤ tol) (h : cmtStep tol w = some (.ok (t, w')))
    (hc : ∀ e ∈ w, isCent e.2) :
    w' = dmodify (dmodify w t.to_person (· - t.amount)) t.from_person (· + t.amount) ∧
    ∀ e ∈ w', isCent e.2 := by
  obtain ⟨cb, db, hcmem, hdmem, hcb, hdb, hamt, hw', hmin1, hmin2⟩ :=
    cmtStep_ok tol w t w' htol h
  have hamtC : isCent t.amount := by
    rw [hamt]
    exact isCent_round_money _
  have h1 : ∀ e ∈ dmodify w t.to_person (· - t.amount), isCent e.2 := by
    intro e he
    rcases mem_dmodify _ _ _ _ he with he0 | ⟨v, hv, rfl⟩
    · exact hc e he0
    · exact isCent_sub (hc (t.to_person, v) hv) hamtC
  have h2 : ∀ e ∈ dmodify (dmodify w t.to_person (· - t.amount))
      t.from_person (· + t.amount), isCent e.2 := by
    intro e he
    rcases mem_dmodify _ _ _ _ he with he0 | ⟨v, hv, rfl⟩
    · exact h1 e he0
    · exact isCent_add (h1 (t.from_person, v) hv) hamtC
  have h3 : dmodify (dmodify (dmodify w t.to_person (· - t.amount))
      t.from_person (· + t.amount)) t.to_person (fun v => round_money v 2) =
      dmodify (dmodify w t.to_person (· - t.amount)) t.from_person (· + t.amount) :=
    dmodify_value_id _ _ _ (round_money_of_isCent (isCent_dget _ _ h2))
  have h4 : w' = dmodify (dmodify w t.to_person (· - t.amount))
      t.from_person (· + t.amount) := by
    rw [hw', h3]
    exact dmodify_value_id _ _ _ (round_money_of_isCent (isCent_dget _ _ h2))
  exact ⟨h4, by rw [h4]; exact h2⟩

theorem cmtStep_avoid (tol : ℚ) (w : Balances) (t : SettlementTransfer) (w' : Balances)
    (q : Person) (htol : 0 ≤ tol) (hn : (dkeys w).Nodup)
    (h : cmtStep tol w = some (.ok (t, w'))) (hq : dget w q = 0) :
    t.to_person ≠ q ∧ t.from_person ≠ q ∧ dget w' q = 0 := by
  obtain ⟨cb, db, hcmem, hdmem, hcb, hdb, hamt, hw', hmin1, hmin2⟩ :=
    cmtStep_ok tol w t w' htol h
  have hcbval : dget w t.to_person = cb := (mem_nodup_eq_dget w (t.to_person, cb) hn hcmem).symm
  have hdbval : dget w t.from_person = db :=
    (mem_nodup_eq_dget w (t.from_person, db) hn hdmem).symm
  have hto : t.to_person ≠ q := by
    intro hc0
    rw [hc0, hq] at hcbval
    linarith
  have hfrom : t.from_person ≠ q := by
    intro hc0
    rw [hc0, hq] at hdbval
    linarith
  refine ⟨hto, hfrom, ?_⟩
  rw [hw', dget_dmodify_ne _ _ _ _ (fun hc0 => hfrom hc0.symm),
    dget_dmodify_ne _ _ _ _ (fun hc0 => hto hc0.symm),
    dget_dmodify_ne _ _ _ _ (fun hc0 => hfrom hc0.symm),
    dget_dmodify_ne _ _ _ _ (fun hc0 => hto hc0.symm)]
  exact hq

theorem cmtLoop_run (tol : ℚ) (htol : 0 ≤ tol) :
    ∀ (fuel : ℕ) (w : Balances) (acc : List SettlementTransfer) (wf : Balances)
      (ts : List SettlementTransfer),
    (dkeys w).Nodup → (∀ e ∈ w, isCent e.2) →
    cmtLoop tol fuel w acc = some (Except.ok (wf, ts)) →
    ∃ new, ts = acc ++ new ∧
      wf = applyTransfers w new ∧
      dkeys wf = dkeys w ∧
      (∀ e ∈ wf, isCent e.2) ∧
      cmtStep tol wf = none ∧
      (∀ q, dget w q = 0 → dget wf q = 0 ∧
        ∀ u ∈ new, u.from_person ≠ q ∧ u.to_person ≠ q) ∧
      new.Pairwise (fun a b => transferKey a ≠ transferKey b) := by
  intro fuel
  induction fuel with
  | zero =>
    intro w acc wf ts _ _ h
    exact Option.noConfusion h
  | succ fuel ih =>
    intro w acc wf ts hn hc h
    rw [cmtLoop] at h
    cases hst : cmtStep tol w with
    | none =>
      rw [hst] at h
      dsimp only at h
      injection h with h1
      injection h1 with h2
      injection h2 with h3 h4
      cases h3
      cases h4
      refine ⟨[], (List.append_nil acc).symm, rfl, rfl, hc, hst, ?_, List.Pairwise.nil⟩
      exact fun q hq => ⟨hq, fun u hu => absurd hu (List.not_mem_nil u)⟩
    | some r =>
      cases r with
      | error e =>
        rw [hst] at h
        dsimp only at h
        injection h with h1
        exact Except.noConfusion h1
      | ok pr =>
        obtain ⟨t, w'⟩ := pr
        rw [hst] at h
        dsimp only at h
        have hmeas := cmtStep_measure tol w t w' htol hn hst
        obtain ⟨hw'eq, hw'c⟩ := cmtStep_cent_run tol w t w' htol hst hc
        have hn' : (dkeys w').Nodup := hmeas.1 ▸ hn
        obtain ⟨new', hts, hwf, hkeys, hcf, hstop, havoid, hpw⟩ :=
          ih w' (acc ++ [t]) wf ts hn' hw'c h
        refine ⟨t :: new', ?_, ?_, hkeys.trans hmeas.1, hcf, hstop, ?_, ?_⟩
        · rw [hts, List.append_assoc]
          rfl
        · rw [hwf, hw'eq]
          rfl
        · intro q hq
          obtain ⟨hto, hfrom, hq'⟩ := cmtStep_avoid tol w t w' q htol hn hst hq
          obtain ⟨hqf, hnew'⟩ := havoid q hq'
          refine ⟨hqf, fun u hu => ?_⟩
          rcases List.mem_cons.mp hu with rfl | hu'
          · exact ⟨hfrom, hto⟩
          · exact hnew' u hu'
        · refine List.Pairwise.cons ?_ hpw
          intro u hu hkey
          obtain ⟨hfrom_eq, hto_eq⟩ := transferKey_inj t u hkey
          rcases hmeas.2.1 with hz | hz
          · obtain ⟨_, hnt⟩ := havoid t.to_person hz
            exact (hnt u hu).2 hto_eq.symm
          · obtain ⟨_, hnt⟩ := havoid t.from_person hz
            exact (hnt u hu).1 hfrom_eq.symm

theorem cmtLoop_ok_exists (tol : ℚ) (htol : 0 ≤ tol) :
    ∀ (fuel : ℕ) (w : Balances) (acc : List SettlementTransfer),
    (dkeys w).Nodup →
    w.countP (fun e => decide (tol < |e.2|)) < fuel →
    ∃ wf ts, cmtLoop tol fuel w acc = some (Except.ok (wf, ts)) ∧
      ts.length ≤ acc.length + w.countP (fun e => decide (tol < |e.2|)) := by
  intro fuel
  induction fuel with
  | zero =>
    intro w acc _ hlt
    exact absurd hlt (Nat.not_lt_zero _)
  | succ fuel ih =>
    intro w acc hn hlt
    rcases cmtStep_cases tol w htol with hst | ⟨t, w', hst⟩
    · refine ⟨w, acc, ?_, Nat.le_add_right _ _⟩
      rw [cmtLoop, hst]
    · have hmeas := cmtStep_measure tol w t w' htol hn hst
      have hn' : (dkeys w').Nodup := hmeas.1 ▸ hn
      have hdec := hmeas.2.2
      have hlt' : w'.countP (fun e => decide (tol < |e.2|)) < fuel := by omega
      obtain ⟨wf, ts, hrun, hlen⟩ := ih w' (acc ++ [t]) hn' hlt'
      refine ⟨wf, ts, ?_, ?_⟩
      · rw [cmtLoop, hst]
        exact hrun
      · have hal : (acc ++ [t]).length = acc.length + 1 := by simp
        rw [hal] at hlen
        omega

theorem applyTransfers_dget (ts : List SettlementTransfer) :
    ∀ (w : Balances) (p : Person),
    dget (applyTransfers w ts) p = dget w p +
      (if p ∈ dkeys w then
        (ts.map (fun u => (if u.from_person = p then u.amount else 0)
          - (if u.to_person = p then u.amount else 0))).sum
      else 0) := by
  induction ts with
  | nil =>
    intro w p
    simp [applyTransfers]
  | cons t ts ih =>
    intro w p
    have hstep : applyTransfers w (t :: ts) =
        applyTransfers (dmodify (dmodify w t.to_person (· - t.amount))
          t.from_person (· + t.amount)) ts := rfl
    rw [hstep, ih]
    have hkeys : dkeys (dmodify (dmodify w t.to_person (· - t.amount))
        t.from_person (· + t.amount)) = dkeys w := by
      rw [dkeys_dmodify, dkeys_dmodify]
    rw [hkeys, List.map_cons, List.sum_cons]
    by_cases hp : p ∈ dkeys w
    · rw [if_pos hp, if_pos hp]
      have hp1 : p ∈ dkeys (dmodify w t.to_person (· - t.amount)) := by
        rw [dkeys_dmodify]
        exact hp
      by_cases hf : t.from_person = p
      · subst hf
        rw [dget_dmodify_self _ _ _ hp1]
        by_cases ht : t.to_person = t.from_person
        · rw [ht, dget_dmodify_self _ _ _ hp, if_pos rfl]
          ring
        · rw [dget_dmodify_ne _ _ _ _ (fun hc => ht hc.symm), if_pos rfl,
            if_neg ht]
          ring
      · rw [dget_dmodify_ne _ _ _ _ (fun hc => hf hc.symm)]
        by_cases ht : t.to_person = p
        · subst ht
          rw [dget_dmodify_self _ _ _ hp, if_neg hf, if_pos rfl]
          ring
        · rw [dget_dmodify_ne _ _ _ _ (fun hc => ht hc.symm), if_neg hf, if_neg ht]
          ring
    · rw [if_neg hp, if_neg hp]
      have h1 : dget (dmodify (dmodify w t.to_person (· - t.amount))
          t.from_person (· + t.amount)) p = 0 :=
        dget_not_mem _ _ (by rw [hkeys]; exact hp)
      rw [h1, dget_not_mem w p hp]

theorem applyTransfers_perm_dget (ts1 ts2 : List SettlementTransfer)
    (h : ts1.Perm ts2) (w : Balances) (p : Person) :
    dget (applyTransfers w ts1) p = dget (applyTransfers w ts2) p := by
  rw [applyTransfers_dget, applyTransfers_dget]
  have hs := (h.map (fun u => (if u.from_person = p then u.amount else 0)
    - (if u.to_person = p then u.amount else 0))).sum_eq
  rw [hs]

theorem countP_le_len {α : Type} (p : α → Bool) (l : List α) :
    l.countP p ≤ l.length := by
  induction l with
  | nil => simp
  | cons x t ih =>
    rw [List.countP_cons, List.length_cons]
    by_cases hx : p x = true
    · rw [if_pos hx]
      omega
    · rw [if_neg hx]
      omega

/-- **C5**: for every balance mapping (with the dict's keys unique) and
nonnegative tolerance, the greedy loop of `compute_minimal_transfers`
terminates — the fuel `length + 1` always suffices, so the function returns
`some` result — within a number of iterations (= recorded transfers) bounded
by the number of people, because each iteration drives the selected
creditor's or debtor's working balance to exactly zero. -/
theorem compute_minimal_transfers_terminates (w : Balances) (tol : ℚ)
    (htol : 0 ≤ tol) (hn : (dkeys w).Nodup) :
    (∃ r, compute_minimal_transfers w tol = some r) ∧
    (∀ wf ts, cmtLoop tol (w.length + 1) w [] = some (Except.ok (wf, ts)) →
      ts.length ≤ w.length) ∧
    (∀ t w', cmtStep tol w = some (Except.ok (t, w')) →
      dget w' t.to_person = 0 ∨ dget w' t.from_person = 0) := by
  have hcount : w.countP (fun e => decide (tol < |e.2|)) ≤ w.length :=
    countP_le_len _ _
  obtain ⟨wf, ts, hrun, hlen⟩ :=
    cmtLoop_ok_exists tol htol (w.length + 1) w [] hn (by omega)
  refine ⟨?_, ?_, ?_⟩
  · simp only [compute_minimal_transfers, hrun, Option.map_some']
    exact ⟨_, rfl⟩
  · intro wf' ts' h
    rw [hrun] at h
    injection h with h1
    injection h1 with h2
    injection h2 with h3 h4
    rw [← h4]
    simp only [List.length_nil, Nat.zero_add] at hlen
    omega
  · intro t w' hst
    exact (cmtStep_measure tol w t w' htol hn hst).2.1

theorem compute_minimal_transfers_terminates_witness :
    (0:ℚ) ≤ 2/100 ∧
    (dkeys [(Person.mk "Alice" "a", (1:ℚ)), (Person.mk "Bob" "b", (-1:ℚ))]).Nodup ∧
    ((∃ r, compute_minimal_transfers
        [(Person.mk "Alice" "a", (1:ℚ)), (Person.mk "Bob" "b", (-1:ℚ))] (2/100) = some r) ∧
      (∀ wf ts, cmtLoop (2/100)
          ([(Person.mk "Alice" "a", (1:ℚ)), (Person.mk "Bob" "b", (-1:ℚ))].length + 1)
          [(Person.mk "Alice" "a", (1:ℚ)), (Person.mk "Bob" "b", (-1:ℚ))] [] =
          some (Except.ok (wf, ts)) →
        ts.length ≤ [(Person.mk "Alice" "a", (1:ℚ)), (Person.mk "Bob" "b", (-1:ℚ))].length) ∧
      (∀ t w', cmtStep (2/100)
          [(Person.mk "Alice" "a", (1:ℚ)), (Person.mk "Bob" "b", (-1:ℚ))] =
          some (Except.ok (t, w')) →
        dget w' t.to_person = 0 ∨ dget w' t.from_person = 0)) :=
  ⟨by norm_num, by decide,
    compute_minimal_transfers_terminates _ _ (by norm_num) (by decide)⟩

/-- **C2**: for a balance mapping with unique keys, cent-valued balances and
nonnegative tolerance: (a) whenever `compute_minimal_transfers` returns a
transfer list, applying every returned transfer in order (subtracting each
amount from the creditor and adding it to the debtor) leaves every person's
balance within the tolerance of 0; (b) the result is the `RoundingError`
exactly when some working balance still exceeds the tolerance when the
greedy loop ends. -/
theorem compute_minimal_transfers_clears (w : Balances) (tol : ℚ)
    (htol : 0 ≤ tol) (hn : (dkeys w).Nodup) (hc : ∀ e ∈ w, isCent e.2) :
    (∀ ts, compute_minimal_transfers w tol = some (Except.ok ts) →
      ∀ p ∈ dkeys w, |dget (applyTransfers w ts) p| ≤ tol) ∧
    (∀ r, compute_minimal_transfers w tol = some r →
      (r = Except.error Err.rounding ↔
        ∃ wf ts0, cmtLoop tol (w.length + 1) w [] = some (Except.ok (wf, ts0)) ∧
          wf.any (fun e => decide (tol < |e.2|)) = true)) := by
  have hcount : w.countP (fun e => decide (tol < |e.2|)) ≤ w.length :=
    countP_le_len _ _
  obtain ⟨wf, ts0, hrun, hlen⟩ :=
    cmtLoop_ok_exists tol htol (w.length + 1) w [] hn (by omega)
  obtain ⟨new, hts0, hwf, hkeys, hcf, hstop, havoid, hpw⟩ :=
    cmtLoop_run tol htol (w.length + 1) w [] wf ts0 hn hc hrun
  rw [List.nil_append] at hts0
  subst hts0
  constructor
  · intro ts hts p hp
    simp only [compute_minimal_transfers, hrun, Option.map_some'] at hts
    injection hts with h1
    by_cases hany : wf.any (fun e => decide (tol < |e.2|)) = true
    · rw [if_pos hany] at h1
      exact Except.noConfusion h1
    · rw [if_neg hany] at h1
      injection h1 with h2
      have hbound : ∀ e ∈ wf, ¬ (tol < |e.2|) := by
        intro e he hlt0
        exact hany (List.any_eq_true.mpr ⟨e, he, decide_eq_true hlt0⟩)
      have hperm : ts.Perm ts0 := by
        rw [← h2]
        exact sortOn_perm transferKey ts0
      have heq : dget (applyTransfers w ts) p = dget wf p := by
        rw [applyTransfers_perm_dget ts ts0 hperm w p, ← hwf]
      rw [heq]
      have hpwf : p ∈ dkeys wf := by
        rw [hkeys]
        exact hp
      obtain ⟨e, he, hpe⟩ := List.mem_map.mp hpwf
      have hnwf : (dkeys wf).Nodup := by
        rw [hkeys]
        exact hn
      have hval : dget wf p = e.2 := by
        rw [← hpe]
        exact (mem_nodup_eq_dget wf e hnwf he).symm
      rw [hval]
      exact not_lt.mp (hbound e he)
  · intro r hr
    simp only [compute_minimal_transfers, hrun, Option.map_some'] at hr
    injection hr with h1
    constructor
    · intro hre
      by_cases hany : wf.any (fun e => decide (tol < |e.2|)) = true
      · exact ⟨wf, ts0, hrun, hany⟩
      · rw [if_neg hany, hre] at h1
        exact Except.noConfusion h1
    · rintro ⟨wf', ts', hrun', hany'⟩
      rw [hrun] at hrun'
      injection hrun' with hh1
      injection hh1 with hh2
      injection hh2 with hh3 hh4
      cases hh3
      cases hh4
      rw [if_pos hany'] at h1
      exact h1.symm

theorem compute_minimal_transfers_clears_witness :
    (0:ℚ) ≤ 2/100 ∧
    (dkeys [(Person.mk "Alice" "a", (1:ℚ)), (Person.mk "Bob" "b", (-1:ℚ))]).Nodup ∧
    (∀ e ∈ [(Person.mk "Alice" "a", (1:ℚ)), (Person.mk "Bob" "b", (-1:ℚ))], isCent e.2) ∧
    ((∀ ts, compute_minimal_transfers
        [(Person.mk "Alice" "a", (1:ℚ)), (Person.mk "Bob" "b", (-1:ℚ))] (2/100) =
        some (Except.ok ts) →
      ∀ p ∈ dkeys [(Person.mk "Alice" "a", (1:ℚ)), (Person.mk "Bob" "b", (-1:ℚ))],
        |dget (applyTransfers
          [(Person.mk "Alice" "a", (1:ℚ)), (Person.mk "Bob" "b", (-1:ℚ))] ts) p| ≤ 2/100) ∧
    (∀ r, compute_minimal_transfers
        [(Person.mk "Alice" "a", (1:ℚ)), (Person.mk "Bob" "b", (-1:ℚ))] (2/100) = some r →
      (r = Except.error Err.rounding ↔
        ∃ wf ts0, cmtLoop (2/100)
            ([(Person.mk "Alice" "a", (1:ℚ)), (Person.mk "Bob" "b", (-1:ℚ))].length + 1)
            [(Person.mk "Alice" "a", (1:ℚ)), (Person.mk "Bob" "b", (-1:ℚ))] [] =
            some (Except.ok (wf, ts0)) ∧
          wf.any (fun e => decide (2/100 < |e.2|)) = true))) :=
  ⟨by norm_num, by decide,
    fun e he => by
      rcases List.mem_cons.mp he with rfl | he1
      · exact ⟨100, by norm_num⟩
      · rcases List.mem_cons.mp he1 with rfl | he2
        · exact ⟨-100, by norm_num⟩
        · exact absurd he2 (List.not_mem_nil _),
    compute_minimal_transfers_clears _ _ (by norm_num) (by decide)
      (fun e he => by
        rcases List.mem_cons.mp he with rfl | he1
        · exact ⟨100, by norm_num⟩
        · rcases List.mem_cons.mp he1 with rfl | he2
          · exact ⟨-100, by norm_num⟩
          · exact absurd he2 (List.not_mem_nil _))⟩

/-- **C4**: every iteration of the greedy loop selects the creditor whose sort
key `(-balance, name, id)` is minimal (the largest balance, ties by name then
id ascending) and the debtor whose key `(balance, name, id)` is minimal (the
most negative balance, same tie-breaking), and records a transfer from that
debtor to that creditor of `round_money (min credit (-debt)) 2`; and the
returned list is sorted by `(from.name, from.id, to.name, to.id)` and is
independent of the order the transfers were generated: any permutation of the
returned transfers re-sorts to the same list. -/
theorem compute_minimal_transfers_selection (w : Balances) (tol : ℚ)
    (htol : 0 ≤ tol) (hn : (dkeys w).Nodup) (hc : ∀ e ∈ w, isCent e.2) :
    (∀ v t v', cmtStep tol v = some (Except.ok (t, v')) →
      ∃ cb db, (t.to_person, cb) ∈ v ∧ (t.from_person, db) ∈ v ∧
        tol < cb ∧ db < -tol ∧
        t.amount = round_money (min cb (-db)) 2 ∧
        (∀ y ∈ v, tol < y.2 → credKey (t.to_person, cb) ≤ credKey y) ∧
        (∀ y ∈ v, y.2 < -tol → debKey (t.from_person, db) ≤ debKey y)) ∧
    (∀ ts, compute_minimal_transfers w tol = some (Except.ok ts) →
      List.Sorted (fun a b => transferKey a ≤ transferKey b) ts ∧
      ∀ gen, ts.Perm gen → sortOn transferKey gen = ts) := by
  constructor
  · intro v t v' h
    obtain ⟨cb, db, h1, h2, h3, h4, h5, _, h7, h8⟩ := cmtStep_ok tol v t v' htol h
    exact ⟨cb, db, h1, h2, h3, h4, h5, h7, h8⟩
  · intro ts hts
    have hcount : w.countP (fun e => decide (tol < |e.2|)) ≤ w.length :=
      countP_le_len _ _
    obtain ⟨wf, ts0, hrun, hlen⟩ :=
      cmtLoop_ok_exists tol htol (w.length + 1) w [] hn (by omega)
    obtain ⟨new, hts0, hwf, hkeys, hcf, hstop, havoid, hpw⟩ :=
      cmtLoop_run tol htol (w.length + 1) w [] wf ts0 hn hc hrun
    rw [List.nil_append] at hts0
    subst hts0
    simp only [compute_minimal_transfers, hrun, Option.map_some'] at hts
    injection hts with h1
    by_cases hany : wf.any (fun e => decide (tol < |e.2|)) = true
    · rw [if_pos hany] at h1
      exact Except.noConfusion h1
    · rw [if_neg hany] at h1
      injection h1 with h2
      constructor
      · rw [← h2]
        exact sortOn_sorted transferKey ts0
      · intro gen hgen
        have hpermtn : ts.Perm ts0 := by
          rw [← h2]
          exact sortOn_perm transferKey ts0
        have hpermgn : gen.Perm ts0 := hgen.symm.trans hpermtn
        have hpwgen : gen.Pairwise (fun a b => transferKey a ≠ transferKey b) :=
          (List.Perm.pairwise_iff (fun hab hc0 => hab hc0.symm) hpermgn).mpr hpw
        rw [sortOn_eq_of_perm transferKey gen ts0 hpermgn hpwgen, h2]

theorem compute_minimal_transfers_selection_witness :
    (0:ℚ) ≤ 2/100 ∧
    (dkeys [(Person.mk "Alice" "a", (1:ℚ)), (Person.mk "Bob" "b", (-1:ℚ))]).Nodup ∧
    (∀ e ∈ [(Person.mk "Alice" "a", (1:ℚ)), (Person.mk "Bob" "b", (-1:ℚ))], isCent e.2) ∧
    ((∀ v t v', cmtStep (2/100) v = some (Except.ok (t, v')) →
      ∃ cb db, (t.to_person, cb) ∈ v ∧ (t.from_person, db) ∈ v ∧
        2/100 < cb ∧ db < -(2/100) ∧
        t.amount = round_money (min cb (-db)) 2 ∧
        (∀ y ∈ v, 2/100 < y.2 → credKey (t.to_person, cb) ≤ credKey y) ∧
        (∀ y ∈ v, y.2 < -(2/100) → debKey (t.from_person, db) ≤ debKey y)) ∧
    (∀ ts, compute_minimal_transfers
        [(Person.mk "Alice" "a", (1:ℚ)), (Person.mk "Bob" "b", (-1:ℚ))] (2/100) =
        some (Except.ok ts) →
      List.Sorted (fun a b => transferKey a ≤ transferKey b) ts ∧
      ∀ gen, ts.Perm gen → sortOn transferKey gen = ts)) :=
  ⟨by norm_num, by decide,
    fun e he => by
      rcases List.mem_cons.mp he with rfl | he1
      · exact ⟨100, by norm_num⟩
      · rcases List.mem_cons.mp he1 with rfl | he2
        · exact ⟨-100, by norm_num⟩
        · exact absurd he2 (List.not_mem_nil _),
    compute_minimal_transfers_selection _ _ (by norm_num) (by decide)
      (fun e he => by
        rcases List.mem_cons.mp he with rfl | he1
        · exact ⟨100, by norm_num⟩
        · rcases List.mem_cons.mp he1 with rfl | he2
          · exact ⟨-100, by norm_num⟩
          · exact absurd he2 (List.not_mem_nil _))⟩

theorem hget_append (h : Heap) (d : Balances) (r : ℕ) (hr : r < h.length) :
    hget (h ++ [d]) r = hget h r := by
  unfold hget
  rw [List.getD_append _ _ _ _ hr]

theorem hget_set_ne (h : Heap) (r q : ℕ) (d : Balances) (hne : q ≠ r) :
    hget (hset h r d) q = hget h q := by
  unfold hget hset
  unfold List.getD
  rw [List.get?_set_ne _ _ (fun hc => hne hc.symm)]

theorem distLoopSt_other (inc : ℚ) :
    ∀ (ps : List Person) (h : Heap) (r : ℕ) (rem : ℚ) (q : ℕ), q ≠ r →
    hget (distLoopSt inc ps h r rem) q = hget h q := by
  intro ps
  induction ps with
  | nil =>
    intro h r rem q _
    rfl
  | cons p pt ih =>
    intro h r rem q hq
    rw [distLoopSt]
    by_cases h0 : rem = 0
    · rw [if_pos h0]
    · rw [if_neg h0, ih _ _ _ _ hq, hget_set_ne _ _ _ _ hq]

theorem cmtLoopSt_other (tol : ℚ) :
    ∀ (fuel : ℕ) (h : Heap) (r : ℕ) (ts : List SettlementTransfer) (q : ℕ), q ≠ r →
    hget (cmtLoopSt tol fuel h r ts).2 q = hget h q := by
  intro fuel
  induction fuel with
  | zero =>
    intro h r ts q _
    rfl
  | succ fuel ih =>
    intro h r ts q hq
    rw [cmtLoopSt]
    cases cmtStep tol (hget h r) with
    | none => rfl
    | some res =>
      cases res with
      | error e => rfl
      | ok pr =>
        obtain ⟨t, w⟩ := pr
        dsimp only
        rw [ih _ _ _ _ hq, hget_set_ne _ _ _ _ hq]

theorem distribute_remainder_st_frame (h : Heap) (r : ℕ) (rem tolr : ℚ)
    (hr : r < h.length) :
    hget (distribute_remainder_st h r rem tolr).2 r = hget h r := by
  have hne : r ≠ h.length := Nat.ne_of_lt hr
  simp only [distribute_remainder_st, halloc]
  split_ifs with h1 h2
  · rfl
  · exact hget_append _ _ _ hr
  · rw [distLoopSt_other _ _ _ _ _ _ hne]
    exact hget_append _ _ _ hr
  · rw [distLoopSt_other _ _ _ _ _ _ hne]
    exact hget_append _ _ _ hr

theorem ensure_zero_sum_st_frame (h : Heap) (r : ℕ) (tolr : ℚ)
    (hr : r < h.length) :
    hget (ensure_zero_sum_st h r tolr).2 r = hget h r := by
  simp only [ensure_zero_sum_st, halloc]
  split_ifs with h1 h2
  · exact distribute_remainder_st_frame h r _ tolr hr
  · exact hget_append _ _ _ hr
  · rfl

theorem compute_minimal_transfers_st_frame (h : Heap) (r : ℕ) (tol : ℚ)
    (hr : r < h.length) :
    hget (compute_minimal_transfers_st h r tol).2 r = hget h r := by
  have hne : r ≠ h.length := Nat.ne_of_lt hr
  have hloop := cmtLoopSt_other tol ((hget h r).length + 1) (h ++ [hget h r])
    h.length [] r hne
  have happ : hget (h ++ [hget h r]) r = hget h r := hget_append _ _ _ hr
  simp only [compute_minimal_transfers_st, halloc]
  cases hres : cmtLoopSt tol ((hget h r).length + 1) (h ++ [hget h r]) h.length [] with
  | mk o h3 =>
    rw [hres] at hloop
    dsimp only at hloop
    cases o with
    | none =>
      dsimp only
      exact hloop.trans happ
    | some ex =>
      cases ex with
      | error e =>
        dsimp only
        exact hloop.trans happ
      | ok ts =>
        dsimp only
        split_ifs with hany
        · exact hloop.trans happ
        · exact hloop.trans happ

/-- **C9**: none of `distribute_remainder`, `ensure_zero_sum` or
`compute_minimal_transfers` mutates the caller's input balance dict: in the
heap model, for any valid reference, the dict reachable through the input
reference is identical before and after each call — all intermediate
mutation targets the freshly allocated private copy. -/
theorem no_input_mutation (h : Heap) (r : ℕ) (remainder tolerance tol : ℚ)
    (hr : r < h.length) :
    hget (distribute_remainder_st h r remainder tolerance).2 r = hget h r ∧
    hget (ensure_zero_sum_st h r tolerance).2 r = hget h r ∧
    hget (compute_minimal_transfers_st h r tol).2 r = hget h r :=
  ⟨distribute_remainder_st_frame h r remainder tolerance hr,
   ensure_zero_sum_st_frame h r tolerance hr,
   compute_minimal_transfers_st_frame h r tol hr⟩

theorem no_input_mutation_witness :
    0 < ([[(Person.mk "Alice" "a", (1:ℚ))]] : Heap).length ∧
    (hget (distribute_remainder_st [[(Person.mk "Alice" "a", (1:ℚ))]] 0
        (1/100) (2/100)).2 0 = hget [[(Person.mk "Alice" "a", (1:ℚ))]] 0 ∧
      hget (ensure_zero_sum_st [[(Person.mk "Alice" "a", (1:ℚ))]] 0 (2/100)).2 0 =
        hget [[(Person.mk "Alice" "a", (1:ℚ))]] 0 ∧
      hget (compute_minimal_transfers_st [[(Person.mk "Alice" "a", (1:ℚ))]] 0 (2/100)).2 0 =
        hget [[(Person.mk "Alice" "a", (1:ℚ))]] 0) :=
  ⟨by decide, no_input_mutation _ _ _ _ _ (by decide)⟩
